import Mathlib

/-!
Verification development for the Gomoku minimax/alpha-beta engine
(`07_minimax_exercise.py`).  The Python code is shallowly embedded:
the numpy `n × n` array becomes a list of rows, in-place mutation becomes
explicit state passing, recursion is driven by an explicit fuel argument
(with `none` meaning the fuel ran out; a lemma shows fuel
`emptyCount b + 1` always suffices), and Python `None` results become
`Option`.
-/

/-- Winning run length; the module-level constant `NEEDED_TO_WIN = 3`. -/
def NEEDED_TO_WIN : Nat := 3

/-- Default board side; the module-level constant `BOARD_SIZE = 3`. -/
def BOARD_SIZE : Nat := 3

/-- The board: a list of rows of cells (0 = empty, 1 = X, 2 = O),
embedding the numpy array `self.board`. -/
structure GomokuBoard where
  rows : List (List Nat)
deriving DecidableEq, Repr

/-- Side length `n` of the board (`board.shape[0]`). -/
def size (b : GomokuBoard) : Nat := b.rows.length

/-- Read cell `(i, j)`; out-of-range reads default to 0 (only used in
range in the embedding). -/
def cell (b : GomokuBoard) (i j : Nat) : Nat := (b.rows.getD i []).getD j 0

/-- Well-formedness: the array is square (`n × n`), which numpy guarantees
by construction. -/
def Wf (b : GomokuBoard) : Prop := ∀ r ∈ b.rows, r.length = size b

instance (b : GomokuBoard) : Decidable (Wf b) := by
  unfold Wf; infer_instance

/-- Replace the element at index `i` (no-op when out of range). -/
def modifyAt {α : Type} : List α → Nat → (α → α) → List α
  | [], _, _ => []
  | x :: xs, 0, f => f x :: xs
  | x :: xs, n + 1, f => x :: modifyAt xs n f

/-- Write `p` into cell `(i, j)`: the `__setitem__` of `GomokuBoard`
applied to a tuple index. -/
def setCell (b : GomokuBoard) (i j p : Nat) : GomokuBoard :=
  ⟨modifyAt b.rows i (fun row => modifyAt row j (fun _ => p))⟩

/-- `GomokuBoard.copy`: in the value-semantics embedding a copy is the
same value (the aliasing aspects of `copy` are modelled separately by the
heap model below). -/
def copyB (b : GomokuBoard) : GomokuBoard := ⟨b.rows⟩

/-- Prepend one element to a run-length encoding, merging it into the
first group when the keys agree. -/
def groupCons (x : Nat) : List (Nat × Nat) → List (Nat × Nat)
  | [] => [(x, 1)]
  | (y, k) :: rest => if x = y then (y, k + 1) :: rest else (x, 1) :: (y, k) :: rest

/-- Group a list into maximal runs, as `itertools.groupby` followed by
taking each group's key and length. -/
def groupRuns : List Nat → List (Nat × Nat)
  | [] => []
  | x :: xs => groupCons x (groupRuns xs)

/-- Scan one line for the first nonempty run of length at least
`NEEDED_TO_WIN`; the body of each generator in `winner`. -/
def lineWin (l : List Nat) : Option Nat :=
  (groupRuns l).findSome? fun g =>
    if g.1 ≠ 0 ∧ NEEDED_TO_WIN ≤ g.2 then some g.1 else none

/-- Scan a family of lines in order, as each `for ... in` loop of
`winner` does. -/
def scanLines (ls : List (List Nat)) : Option Nat := ls.findSome? lineWin

/-- The columns of the board (`self.board.T` rows). -/
def colsOf (b : GomokuBoard) : List (List Nat) :=
  (List.range (size b)).map fun j => (List.range (size b)).map fun i => cell b i j

/-- `self.board.diagonal(o)` of numpy: the diagonal with offset `o`. -/
def diagOf (b : GomokuBoard) (o : Int) : List Nat :=
  if 0 ≤ o then
    (List.range (size b - o.toNat)).map fun k => cell b k (k + o.toNat)
  else
    (List.range (size b - (-o).toNat)).map fun k => cell b (k + (-o).toNat) k

/-- The diagonal offsets scanned by `winner`:
`range(NEEDED_TO_WIN - n, n - NEEDED_TO_WIN + 1)`. -/
def offsetsK (n : Nat) : List Int :=
  if NEEDED_TO_WIN ≤ n then
    (List.range (2 * (n - NEEDED_TO_WIN) + 1)).map fun t : Nat =>
      (NEEDED_TO_WIN : Int) - (n : Int) + (t : Int)
  else []

/-- `np.flipud`: reverse the order of the rows. -/
def flipud (b : GomokuBoard) : GomokuBoard := ⟨b.rows.reverse⟩

/-- The upper-left-to-lower-right diagonals scanned by `winner`. -/
def diagsK (b : GomokuBoard) : List (List Nat) :=
  (offsetsK (size b)).map (diagOf b)

/-- The lower-left-to-upper-right diagonals scanned by `winner`
(diagonals of the vertically flipped board). -/
def antiDiagsK (b : GomokuBoard) : List (List Nat) :=
  (offsetsK (size b)).map (diagOf (flipud b))

/-- `len(np.where(self.board == 0)[0]) == 0`: no empty cell remains. -/
def isFull (b : GomokuBoard) : Bool := b.rows.all fun r => r.all fun c => c ≠ 0

/-- `GomokuBoard.winner`: scan rows, then columns, then both diagonal
families for a winning run; then report a draw on a full board; else the
game is ongoing (`none`). -/
def winner (b : GomokuBoard) : Option Nat :=
  match scanLines b.rows with
  | some m => some m
  | none =>
    match scanLines (colsOf b) with
    | some m => some m
    | none =>
      match scanLines (diagsK b) with
      | some m => some m
      | none =>
        match scanLines (antiDiagsK b) with
        | some m => some m
        | none => if isFull b then some 0 else none

/-- All index pairs of an `n × n` board in row-major order. -/
def allIdx (n : Nat) : List (Nat × Nat) :=
  (List.range n).flatMap fun i => (List.range n).map fun j => (i, j)

/-- `GomokuBoard.possible_steps`: `np.argwhere(self.board == 0)`, the
empty cells in row-major order. -/
def possible_steps (b : GomokuBoard) : List (Nat × Nat) :=
  (allIdx (size b)).filter fun ij => cell b ij.1 ij.2 = 0

/-- Number of empty cells of the board. -/
def emptyCount (b : GomokuBoard) : Nat := (possible_steps b).length

/-- `GomokuBoard.next_boards`: one copied board per empty cell with that
cell set to `player`, in row-major order. -/
def next_boards (b : GomokuBoard) (player : Nat) : List GomokuBoard :=
  (possible_steps b).map fun ij => setCell (copyB b) ij.1 ij.2 player

/-- `switch_player`: `3 - player`. -/
def switch_player (player : Nat) : Nat := 3 - player

/-- The `for next_board in board.next_boards(player)` loop of the
`maximize` helpers: fold the running maximum and the improving-candidates
list over the successor list; `none` propagates fuel exhaustion from the
child evaluator. -/
def mmMaxLoop (eval : GomokuBoard → Option Int) :
    List GomokuBoard → Int → List GomokuBoard → Option (Int × List GomokuBoard)
  | [], mv, sol => some (mv, sol)
  | nb :: rest, mv, sol =>
    match eval nb with
    | none => none
    | some v =>
      if mv < v then mmMaxLoop eval rest v (sol ++ [nb])
      else mmMaxLoop eval rest mv sol

/-- The successor loop of the `minimize` helpers. -/
def mmMinLoop (eval : GomokuBoard → Option Int) :
    List GomokuBoard → Int → List GomokuBoard → Option (Int × List GomokuBoard)
  | [], mv, sol => some (mv, sol)
  | nb :: rest, mv, sol =>
    match eval nb with
    | none => none
    | some v =>
      if v < mv then mmMinLoop eval rest v (sol ++ [nb])
      else mmMinLoop eval rest mv sol

/-- The recursive `value`/`maximize`/`minimize` trio of `minimax`,
with explicit fuel: `value` dispatches on the player, the helper first
classifies the board (`winner() == 0 / 1 / 2`), otherwise it loops over
the successors.  The result mirrors `MiniMaxReturnType`: the score
together with `None` (terminal) or the candidate list. -/
def mmValue : Nat → GomokuBoard → Nat → Option (Int × Option (List GomokuBoard))
  | 0, _, _ => none
  | fuel + 1, b, p =>
    let eval := fun nb => (mmValue fuel nb (switch_player p)).map Prod.fst
    if p = 2 then
      if winner b = some 0 then some (0, none)
      else if winner b = some 1 then some (-1, none)
      else if winner b = some 2 then some (1, none)
      else (mmMaxLoop eval (next_boards b p) (-1) []).map fun r => (r.1, some r.2)
    else
      if winner b = some 0 then some (0, none)
      else if winner b = some 1 then some (-1, none)
      else if winner b = some 2 then some (1, none)
      else (mmMinLoop eval (next_boards b p) 1 []).map fun r => (r.1, some r.2)

/-- The successor loop of the alpha-beta `maximize`: the improving-max
update, then `alpha = max(alpha, max_value)`, then the
`if beta <= alpha: break` cutoff. -/
def abMaxLoop (eval : GomokuBoard → Int → Int → Option Int) :
    List GomokuBoard → Int → Int → Int → List GomokuBoard → Option (Int × List GomokuBoard)
  | [], _, _, mv, sol => some (mv, sol)
  | nb :: rest, alpha, beta, mv, sol =>
    match eval nb alpha beta with
    | none => none
    | some v =>
      let mv2 := if mv < v then v else mv
      let sol2 := if mv < v then sol ++ [nb] else sol
      let alpha2 := max alpha mv2
      if beta ≤ alpha2 then some (mv2, sol2)
      else abMaxLoop eval rest alpha2 beta mv2 sol2

/-- The successor loop of the alpha-beta `minimize`. -/
def abMinLoop (eval : GomokuBoard → Int → Int → Option Int) :
    List GomokuBoard → Int → Int → Int → List GomokuBoard → Option (Int × List GomokuBoard)
  | [], _, _, mv, sol => some (mv, sol)
  | nb :: rest, alpha, beta, mv, sol =>
    match eval nb alpha beta with
    | none => none
    | some v =>
      let mv2 := if v < mv then v else mv
      let sol2 := if v < mv then sol ++ [nb] else sol
      let beta2 := min beta mv2
      if beta2 ≤ alpha then some (mv2, sol2)
      else abMinLoop eval rest alpha beta2 mv2 sol2

/-- The recursive `value`/`maximize`/`minimize` trio of `alpha_beta`. -/
def abValue : Nat → GomokuBoard → Nat → Int → Int → Option (Int × Option (List GomokuBoard))
  | 0, _, _, _, _ => none
  | fuel + 1, b, p, alpha, beta =>
    let eval := fun nb a2 b2 => (abValue fuel nb (switch_player p) a2 b2).map Prod.fst
    if p = 2 then
      if winner b = some 0 then some (0, none)
      else if winner b = some 1 then some (-1, none)
      else if winner b = some 2 then some (1, none)
      else (abMaxLoop eval (next_boards b p) alpha beta (-1) []).map fun r => (r.1, some r.2)
    else
      if winner b = some 0 then some (0, none)
      else if winner b = some 1 then some (-1, none)
      else if winner b = some 2 then some (1, none)
      else (abMinLoop eval (next_boards b p) alpha beta 1 []).map fun r => (r.1, some r.2)

/-- Top level of `minimax(board)`: run `value(board, 2)` and apply
`solution[0]`.  Outer `none` = fuel exhausted (proved unreachable for
fuel `emptyCount b + 1`); `some none` = `solution` was the empty list, on
which `solution[0]` raises `IndexError`; `some (some b2)` = the board is
mutated to `b2` (`some (some b)` itself when `solution` was Python
`None` and the board is left unchanged). -/
def minimaxStep (b : GomokuBoard) : Option (Option GomokuBoard) :=
  match mmValue (emptyCount b + 1) b 2 with
  | none => none
  | some (_, none) => some (some b)
  | some (_, some []) => some none
  | some (_, some (s :: _)) => some (some s)

/-- Top level of `alpha_beta(board)`: `value(board, 2, -1, 1)` then apply
`solution[0]`, encoded as in `minimaxStep`. -/
def alphaBetaStep (b : GomokuBoard) : Option (Option GomokuBoard) :=
  match abValue (emptyCount b + 1) b 2 (-1) 1 with
  | none => none
  | some (_, none) => some (some b)
  | some (_, some []) => some none
  | some (_, some (s :: _)) => some (some s)

/-- The minimax score of a position: the value component of `value` run
with sufficient fuel (0 is a dummy for the unreachable fuel-out case). -/
def mmScore (b : GomokuBoard) (p : Nat) : Int :=
  match mmValue (emptyCount b + 1) b p with
  | some r => r.1
  | none => 0

/-! ### The remaining embedded components: heap model for `copy`,
numpy indexing for `__getitem__`, and `GameLogic`. -/

/-- A heap of numpy arrays, to model Python object identity: the live
arrays in allocation order.  A `GomokuBoard` object's `self.board` is a
reference (index) into this heap. -/
structure PyHeap where
  arrays : List (List (List Nat))
deriving DecidableEq

/-- Allocate a fresh array, returning the new heap and the reference. -/
def heapAlloc (h : PyHeap) (a : List (List Nat)) : PyHeap × Nat :=
  (⟨h.arrays ++ [a]⟩, h.arrays.length)

/-- Dereference an array. -/
def readArr (h : PyHeap) (r : Nat) : List (List Nat) := h.arrays.getD r []

/-- `GomokuBoard.copy`: `self.board.copy()` allocates a fresh array with
the same contents and wraps it in a new `GomokuBoard`. -/
def boardCopy (h : PyHeap) (r : Nat) : PyHeap × Nat := heapAlloc h (readArr h r)

/-- `__setitem__` on a board object: mutate one cell of the referenced
array in place. -/
def heapSet (h : PyHeap) (r i j v : Nat) : PyHeap :=
  ⟨modifyAt h.arrays r fun a => modifyAt a i fun row => modifyAt row j fun _ => v⟩

/-- numpy single-axis index resolution: negative indices wrap by adding
the axis length; a resolved index outside `[0, len)` is an `IndexError`
(`none`). -/
def npResolve (n : Nat) (i : Int) : Option Nat :=
  if i < 0 then
    if 0 ≤ i + n then some (i + n).toNat else none
  else if i < n then some i.toNat else none

/-- `GomokuBoard.__getitem__` with a tuple index: `self.board[i][j]` with
numpy index semantics on each axis; `none` models the raised
`IndexError`. -/
def getItem (b : GomokuBoard) (i j : Int) : Option Nat :=
  (npResolve (size b) i).bind fun r =>
    (npResolve ((b.rows.getD r []).length) j).map fun c => (b.rows.getD r []).getD c 0

/-- The `GameLogic` state: the live board and the player to move. -/
structure GameLogic where
  board : GomokuBoard
  current_player : Nat
deriving DecidableEq

/-- `GameLogic.play`: reject a move onto a nonempty cell; otherwise place
the mark, report a terminal outcome immediately, and only otherwise let
the engine strategy reply (the two `switch_player` calls around the
engine reply cancel, so `current_player` is unchanged on every path). -/
def play (g : GameLogic) (move_ai : GomokuBoard → GomokuBoard) (row col : Nat) :
    GameLogic × Option Nat :=
  if cell g.board row col ≠ 0 then (g, none)
  else
    let b1 := setCell g.board row col g.current_player
    match winner b1 with
    | some w => (⟨b1, g.current_player⟩, some w)
    | none =>
      let b2 := move_ai b1
      (⟨b2, g.current_player⟩, winner b2)

/-! ### Basic lemmas about `modifyAt`, cells and `possible_steps`. -/

theorem modifyAt_length {α : Type} (l : List α) (i : Nat) (f : α → α) :
    (modifyAt l i f).length = l.length := by
  induction l generalizing i with
  | nil => rfl
  | cons x xs ih =>
    cases i with
    | zero => rfl
    | succ n => simpa [modifyAt] using ih n

theorem getD_modifyAt_ne {α : Type} (l : List α) (i : Nat) (f : α → α) (r : Nat) (d : α)
    (h : r ≠ i) : (modifyAt l i f).getD r d = l.getD r d := by
  induction l generalizing i r with
  | nil => rfl
  | cons x xs ih =>
    cases i with
    | zero =>
      cases r with
      | zero => exact absurd rfl h
      | succ m => simp [modifyAt]
    | succ n =>
      cases r with
      | zero => simp [modifyAt]
      | succ m => simpa [modifyAt] using ih n m (by omega)

theorem getD_modifyAt_self {α : Type} (l : List α) (i : Nat) (f : α → α) (d : α)
    (h : i < l.length) : (modifyAt l i f).getD i d = f (l.getD i d) := by
  induction l generalizing i with
  | nil => simp at h
  | cons x xs ih =>
    cases i with
    | zero => simp [modifyAt]
    | succ n => simpa [modifyAt] using ih n (by simpa using h)

theorem mem_modifyAt {α : Type} (l : List α) (i : Nat) (f : α → α) :
    ∀ y ∈ modifyAt l i f, y ∈ l ∨ ∃ x ∈ l, y = f x := by
  induction l generalizing i with
  | nil => intro y hy; simp [modifyAt] at hy
  | cons x xs ih =>
    cases i with
    | zero =>
      intro y hy
      rcases (List.mem_cons).1 hy with h | h
      · exact Or.inr ⟨x, List.mem_cons_self x xs, h⟩
      · exact Or.inl (List.mem_cons_of_mem x h)
    | succ n =>
      intro y hy
      rcases (List.mem_cons).1 hy with h | h
      · exact Or.inl (h ▸ List.mem_cons_self x xs)
      · rcases ih n y h with h2 | ⟨z, hz, hyz⟩
        · exact Or.inl (List.mem_cons_of_mem x h2)
        · exact Or.inr ⟨z, List.mem_cons_of_mem x hz, hyz⟩

theorem size_setCell (b : GomokuBoard) (i j p : Nat) : size (setCell b i j p) = size b :=
  modifyAt_length _ _ _

theorem Wf_setCell (b : GomokuBoard) (i j p : Nat) (hb : Wf b) : Wf (setCell b i j p) := by
  intro r hr
  rw [size_setCell]
  rcases mem_modifyAt _ _ _ r hr with h | ⟨x, hx, hrx⟩
  · exact hb r h
  · rw [hrx, modifyAt_length]; exact hb x hx

theorem rowLen (b : GomokuBoard) (hb : Wf b) (r : Nat) (hr : r < size b) :
    (b.rows.getD r []).length = size b := by
  apply hb
  have : r < b.rows.length := hr
  rw [List.getD_eq_getElem _ _ this]
  exact List.getElem_mem this

theorem cell_setCell (b : GomokuBoard) (i j p : Nat) (hb : Wf b)
    (hi : i < size b) (hj : j < size b) (r c : Nat) :
    cell (setCell b i j p) r c = if r = i ∧ c = j then p else cell b r c := by
  unfold cell setCell
  by_cases hr : r = i
  · subst hr
    rw [getD_modifyAt_self _ _ _ _ hi]
    by_cases hc : c = j
    · subst hc
      rw [getD_modifyAt_self _ _ _ _ (by rw [rowLen b hb r hi]; exact hj)]
      simp
    · rw [getD_modifyAt_ne _ _ _ _ _ hc]
      simp [hc]
  · rw [getD_modifyAt_ne _ _ _ _ _ hr]
    simp [hr]

theorem mem_allIdx (n : Nat) (i j : Nat) : (i, j) ∈ allIdx n ↔ i < n ∧ j < n := by
  unfold allIdx
  simp [List.mem_flatMap, List.mem_map, List.mem_range]

theorem nodup_allIdx (n : Nat) : (allIdx n).Nodup := by
  unfold allIdx
  rw [List.nodup_flatMap]
  constructor
  · intro x _
    exact (List.nodup_range n).map (fun a b h => by simpa using h)
  · have := List.pairwise_lt_range n
    apply this.imp
    intro a b hab
    intro y hy hy2
    simp only [List.mem_map, List.mem_range] at hy hy2
    rcases hy with ⟨c, _, rfl⟩
    rcases hy2 with ⟨d, _, h⟩
    have hba : b = a := by simpa using congrArg Prod.fst h
    omega

theorem pairwise_allIdx (n : Nat) :
    List.Pairwise (fun x y : Nat × Nat => x.1 < y.1 ∨ (x.1 = y.1 ∧ x.2 < y.2)) (allIdx n) := by
  unfold allIdx
  rw [List.flatMap_def, List.pairwise_flatten]
  constructor
  · intro l hl
    simp only [List.mem_map, List.mem_range] at hl
    rcases hl with ⟨i, _, rfl⟩
    rw [List.pairwise_map]
    exact (List.pairwise_lt_range n).imp fun h => Or.inr ⟨rfl, h⟩
  · rw [List.pairwise_map]
    apply (List.pairwise_lt_range n).imp
    intro a b hab x hx y hy
    simp only [List.mem_map, List.mem_range] at hx hy
    rcases hx with ⟨c, _, rfl⟩
    rcases hy with ⟨d, _, rfl⟩
    exact Or.inl hab

theorem mem_possible_steps (b : GomokuBoard) (i j : Nat) :
    (i, j) ∈ possible_steps b ↔ i < size b ∧ j < size b ∧ cell b i j = 0 := by
  unfold possible_steps
  rw [List.mem_filter, mem_allIdx]
  simp [and_assoc]

/-- A filter over a duplicate-free list loses exactly one element when
the predicate is falsified at exactly one member. -/
theorem filter_length_flip {α : Type} [DecidableEq α] (l : List α) (x : α)
    (f g : α → Bool) (hl : l.Nodup) (hx : x ∈ l) (hfx : f x = true) (hgx : g x = false)
    (hagree : ∀ y ∈ l, y ≠ x → f y = g y) :
    (l.filter g).length + 1 = (l.filter f).length := by
  induction l with
  | nil => simp at hx
  | cons a as ih =>
    by_cases hax : a = x
    · subst hax
      have hnot : a ∉ as := (List.nodup_cons.1 hl).1
      have hfilter : as.filter f = as.filter g := by
        apply List.filter_congr
        intro y hy
        exact hagree y (List.mem_cons_of_mem a hy) (fun h => hnot (h ▸ hy))
      simp [List.filter_cons, hfx, hgx, hfilter]
    · have hxs : x ∈ as := by
        rcases List.mem_cons.1 hx with h | h
        · exact absurd h.symm hax
        · exact h
      have hfg : f a = g a := hagree a (List.mem_cons_self a as) hax
      have ihh := ih (List.nodup_cons.1 hl).2 hxs
        (fun y hy hyx => hagree y (List.mem_cons_of_mem a hy) hyx)
      cases hfa : f a with
      | true =>
        have hga : g a = true := hfg ▸ hfa
        simp only [List.filter_cons, hfa, hga, if_true, List.length_cons]
        omega
      | false =>
        have hga : g a = false := hfg ▸ hfa
        simp only [List.filter_cons, hfa, hga, Bool.false_eq_true, if_false]
        omega

theorem emptyCount_setCell (b : GomokuBoard) (i j p : Nat) (hb : Wf b)
    (hmem : (i, j) ∈ possible_steps b) (hp : p ≠ 0) :
    emptyCount (setCell b i j p) + 1 = emptyCount b := by
  rcases (mem_possible_steps b i j).1 hmem with ⟨hi, hj, hcell⟩
  unfold emptyCount possible_steps
  rw [size_setCell]
  apply filter_length_flip (allIdx (size b)) (i, j)
  · exact nodup_allIdx _
  · exact (mem_allIdx _ _ _).2 ⟨hi, hj⟩
  · simpa using hcell
  · have hc := cell_setCell b i j p hb hi hj i j
    rw [if_pos ⟨rfl, rfl⟩] at hc
    simp [hc, hp]
  · intro y _ hyx
    have hc := cell_setCell b i j p hb hi hj y.1 y.2
    have hne : ¬(y.1 = i ∧ y.2 = j) := by
      intro h2
      exact hyx (Prod.ext h2.1 h2.2)
    rw [if_neg hne] at hc
    simp [hc]

/-! ### Claim C6: the move generator. -/

/-- C6: `next_boards` returns exactly one successor per empty cell of the
input, each the input board with that single cell set to the player's
mark, enumerated over the empty cells in ascending row-major order. -/
theorem next_boards_spec (b : GomokuBoard) (p : Nat) (hb : Wf b) :
    (next_boards b p).length = emptyCount b ∧
    next_boards b p = (possible_steps b).map (fun ij => setCell b ij.1 ij.2 p) ∧
    List.Pairwise (fun x y : Nat × Nat => x.1 < y.1 ∨ (x.1 = y.1 ∧ x.2 < y.2))
      (possible_steps b) ∧
    (∀ i j : Nat, (i, j) ∈ possible_steps b ↔ i < size b ∧ j < size b ∧ cell b i j = 0) ∧
    (∀ i j : Nat, (i, j) ∈ possible_steps b → ∀ r c : Nat,
      cell (setCell b i j p) r c = if r = i ∧ c = j then p else cell b r c) := by
  refine ⟨List.length_map _ _, rfl, (pairwise_allIdx _).filter _, mem_possible_steps b, ?_⟩
  intro i j hmem r c
  rcases (mem_possible_steps b i j).1 hmem with ⟨hi, hj, _⟩
  exact cell_setCell b i j p hb hi hj r c

/-- Witness for C6 at a concrete board. -/
theorem next_boards_spec_witness :
    Wf (⟨[[0, 1], [2, 0]]⟩ : GomokuBoard) ∧
    (next_boards ⟨[[0, 1], [2, 0]]⟩ 2).length = emptyCount ⟨[[0, 1], [2, 0]]⟩ :=
  ⟨by decide, (next_boards_spec ⟨[[0, 1], [2, 0]]⟩ 2 (by decide)).1⟩

/-! ### Claim C7: clone independence, in the heap model. -/

/-- C7: `copy` allocates a fresh array with the same contents; writing any
cell of the clone leaves every cell of the original array unchanged, and
writing any cell of the original leaves the clone unchanged. -/
theorem clone_isolation (h : PyHeap) (r : Nat) (hr : r < h.arrays.length)
    (i j v i2 j2 v2 : Nat) :
    readArr (boardCopy h r).1 (boardCopy h r).2 = readArr h r ∧
    (boardCopy h r).2 ≠ r ∧
    readArr (heapSet (boardCopy h r).1 (boardCopy h r).2 i j v) r = readArr h r ∧
    readArr (heapSet (boardCopy h r).1 r i2 j2 v2) (boardCopy h r).2 = readArr h r := by
  unfold boardCopy heapAlloc readArr heapSet
  simp only
  refine ⟨?_, ?_, ?_, ?_⟩
  · rw [List.getD_append_right _ _ _ _ (le_refl _)]
    simp
  · omega
  · rw [getD_modifyAt_ne _ _ _ _ _ (by omega)]
    rw [List.getD_append _ _ _ _ hr]
  · rw [getD_modifyAt_ne _ _ _ _ _ (by omega)]
    rw [List.getD_append_right _ _ _ _ (le_refl _)]
    simp

/-- Witness for C7 at a concrete one-array heap. -/
theorem clone_isolation_witness :
    0 < (PyHeap.mk [[[1, 0], [0, 2]]]).arrays.length ∧
    (readArr (boardCopy ⟨[[[1, 0], [0, 2]]]⟩ 0).1 (boardCopy ⟨[[[1, 0], [0, 2]]]⟩ 0).2 =
        readArr ⟨[[[1, 0], [0, 2]]]⟩ 0 ∧
      (boardCopy (⟨[[[1, 0], [0, 2]]]⟩ : PyHeap) 0).2 ≠ 0 ∧
      readArr (heapSet (boardCopy ⟨[[[1, 0], [0, 2]]]⟩ 0).1
          (boardCopy ⟨[[[1, 0], [0, 2]]]⟩ 0).2 0 0 5) 0 = readArr ⟨[[[1, 0], [0, 2]]]⟩ 0 ∧
      readArr (heapSet (boardCopy ⟨[[[1, 0], [0, 2]]]⟩ 0).1 0 1 1 7)
          (boardCopy ⟨[[[1, 0], [0, 2]]]⟩ 0).2 = readArr ⟨[[[1, 0], [0, 2]]]⟩ 0) :=
  ⟨by decide, clone_isolation ⟨[[[1, 0], [0, 2]]]⟩ 0 (by decide) 0 0 5 1 1 7⟩

/-! ### Claim C8: `GameLogic.play`. -/

/-- C8: a move onto a nonempty cell is a no-op returning no outcome; a
move onto an empty cell that makes the board terminal reports that
outcome with the mark placed, independently of the engine strategy (the
strategy is never invoked). -/
theorem play_spec (g : GameLogic) (ai : GomokuBoard → GomokuBoard) (row col : Nat) :
    (cell g.board row col ≠ 0 → play g ai row col = (g, none)) ∧
    (cell g.board row col = 0 →
      ∀ w, winner (setCell g.board row col g.current_player) = some w →
        play g ai row col =
          (⟨setCell g.board row col g.current_player, g.current_player⟩, some w)) := by
  constructor
  · intro h
    unfold play
    rw [if_pos h]
  · intro h w hw
    unfold play
    rw [if_neg (by simp [h])]
    simp only [hw]

/-- Witness for C8: a rejected move and a terminal human move, the latter
fed a degenerate strategy that is provably never consulted. -/
theorem play_spec_witness :
    (cell (GameLogic.mk ⟨[[1, 0, 0], [0, 0, 0], [0, 0, 0]]⟩ 1).board 0 0 ≠ 0 ∧
      play ⟨⟨[[1, 0, 0], [0, 0, 0], [0, 0, 0]]⟩, 1⟩ (fun _ => ⟨[]⟩) 0 0 =
        (⟨⟨[[1, 0, 0], [0, 0, 0], [0, 0, 0]]⟩, 1⟩, none)) ∧
    (cell (GameLogic.mk ⟨[[1, 1, 0], [0, 2, 0], [0, 2, 0]]⟩ 1).board 0 2 = 0 ∧
      winner (setCell (GameLogic.mk ⟨[[1, 1, 0], [0, 2, 0], [0, 2, 0]]⟩ 1).board 0 2 1) =
        some 1 ∧
      play ⟨⟨[[1, 1, 0], [0, 2, 0], [0, 2, 0]]⟩, 1⟩ (fun _ => ⟨[]⟩) 0 2 =
        (⟨setCell (GameLogic.mk ⟨[[1, 1, 0], [0, 2, 0], [0, 2, 0]]⟩ 1).board 0 2 1, 1⟩,
          some 1)) :=
  ⟨⟨by decide, (play_spec ⟨⟨[[1, 0, 0], [0, 0, 0], [0, 0, 0]]⟩, 1⟩ (fun _ => ⟨[]⟩) 0 0).1
      (by decide)⟩,
   ⟨by decide, by decide,
    (play_spec ⟨⟨[[1, 1, 0], [0, 2, 0], [0, 2, 0]]⟩, 1⟩ (fun _ => ⟨[]⟩) 0 2).2
      (by decide) 1 (by decide)⟩⟩

/-! ### Claim C9: `__getitem__` bounds behaviour. -/

/-- Characterization of numpy single-axis index resolution. -/
theorem npResolve_eq (n : Nat) (i : Int) :
    npResolve n i =
      (if -(n : Int) ≤ i ∧ i < n then some (if i < 0 then (i + n).toNat else i.toNat)
       else none) := by
  unfold npResolve
  split_ifs <;> first
    | rfl
    | (exfalso; omega)

/-- C9 counterexample: the claim says any index outside `[0, n)` fails,
but numpy wraps negative indices, so `get(-1, -1)` on a 3×3 board silently
returns cell `(2, 2)`. -/
theorem getitem_negative_index_cex :
    getItem ⟨[[1, 2, 1], [2, 1, 2], [2, 1, 2]]⟩ (-1) (-1) = some 2 ∧
    (-1 : Int) < 0 ∧
    getItem ⟨[[1, 2, 1], [2, 1, 2], [2, 1, 2]]⟩ (-1) (-1) ≠ none := by
  decide

/-- C9 amended: `get(row, col)` raises `IndexError` exactly when `row` or
`col` lies outside `[-n, n)`; an in-range index (negative ones wrapping by
`+ n`) returns that cell. -/
theorem getitem_bounds_amended (b : GomokuBoard) (hb : Wf b) (i j : Int) :
    (getItem b i j = none ↔
      (i < -(size b : Int) ∨ (size b : Int) ≤ i ∨
        j < -(size b : Int) ∨ (size b : Int) ≤ j)) ∧
    (-(size b : Int) ≤ i → i < (size b : Int) → -(size b : Int) ≤ j → j < (size b : Int) →
      getItem b i j = some (cell b (if i < 0 then (i + size b).toNat else i.toNat)
        (if j < 0 then (j + size b).toNat else j.toNat))) := by
  have key : ∀ hi1 : -(size b : Int) ≤ i, ∀ hi2 : i < (size b : Int),
      (b.rows.getD (if i < 0 then (i + size b).toNat else i.toNat) []).length = size b := by
    intro hi1 hi2
    apply rowLen b hb
    split_ifs with h <;> omega
  constructor
  · unfold getItem
    by_cases hi : -(size b : Int) ≤ i ∧ i < (size b : Int)
    · rw [npResolve_eq, if_pos hi, Option.some_bind, npResolve_eq, key hi.1 hi.2]
      by_cases hj : -(size b : Int) ≤ j ∧ j < (size b : Int)
      · rw [if_pos hj, Option.map_some']
        constructor
        · intro h
          simp at h
        · intro h
          exfalso
          omega
      · rw [if_neg hj, Option.map_none']
        constructor
        · intro _
          omega
        · intro _
          rfl
    · rw [npResolve_eq, if_neg hi, Option.none_bind]
      constructor
      · intro _
        omega
      · intro _
        rfl
  · intro hi1 hi2 hj1 hj2
    have hii : -(size b : Int) ≤ i ∧ i < (size b : Int) := ⟨hi1, hi2⟩
    have hjj : -(size b : Int) ≤ j ∧ j < (size b : Int) := ⟨hj1, hj2⟩
    unfold getItem
    rw [npResolve_eq, if_pos hii, Option.some_bind, npResolve_eq, key hi1 hi2,
      if_pos hjj, Option.map_some']
    rfl

/-- Witness for C9 amended, at a concrete board: an index `≥ n` fails and
an in-range pair reads the cell. -/
theorem getitem_bounds_amended_witness :
    Wf (⟨[[0, 1], [2, 0]]⟩ : GomokuBoard) ∧
    (getItem ⟨[[0, 1], [2, 0]]⟩ 5 0 = none ↔
      ((5 : Int) < -(size (⟨[[0, 1], [2, 0]]⟩ : GomokuBoard) : Int) ∨
        (size (⟨[[0, 1], [2, 0]]⟩ : GomokuBoard) : Int) ≤ 5 ∨
        (0 : Int) < -(size (⟨[[0, 1], [2, 0]]⟩ : GomokuBoard) : Int) ∨
        (size (⟨[[0, 1], [2, 0]]⟩ : GomokuBoard) : Int) ≤ 0)) :=
  ⟨by decide, (getitem_bounds_amended ⟨[[0, 1], [2, 0]]⟩ (by decide) 5 0).1⟩

/-! ### Claim C4: terminal classification.  The specification-side notion
of a winning run, and the correspondence with `winner`. -/

/-- Every diagonal offset of an `n × n` board: `1 - n .. n - 1`. -/
def offsetsFull (n : Nat) : List Int :=
  if 1 ≤ n then
    (List.range (2 * n - 1)).map fun t : Nat => (1 : Int) - (n : Int) + (t : Int)
  else []

/-- Every line of the board the claim quantifies over: rows, columns, and
all diagonals in both directions. -/
def allLines (b : GomokuBoard) : List (List Nat) :=
  b.rows ++ colsOf b ++ (offsetsFull (size b)).map (diagOf b) ++
    (offsetsFull (size b)).map (diagOf (flipud b))

/-- The claim's winning condition: some line contains `NEEDED_TO_WIN`
consecutive cells all equal to the (nonempty) mark `m`. -/
def hasRun (b : GomokuBoard) (m : Nat) : Prop :=
  m ≠ 0 ∧ ∃ l ∈ allLines b, ∃ i : Nat, i + NEEDED_TO_WIN ≤ l.length ∧
    ∀ t < NEEDED_TO_WIN, l.getD (i + t) 0 = m

/-- Concatenate a run-length encoding back to a list. -/
def runsFlat (gs : List (Nat × Nat)) : List Nat :=
  gs.foldr (fun g acc => List.replicate g.2 g.1 ++ acc) []

theorem runsFlat_cons (g : Nat × Nat) (gs : List (Nat × Nat)) :
    runsFlat (g :: gs) = List.replicate g.2 g.1 ++ runsFlat gs := rfl

theorem runsFlat_append (g1 g2 : List (Nat × Nat)) :
    runsFlat (g1 ++ g2) = runsFlat g1 ++ runsFlat g2 := by
  induction g1 with
  | nil => rfl
  | cons g gs ih =>
    rw [List.cons_append, runsFlat_cons, runsFlat_cons, ih, List.append_assoc]

theorem groupRuns_flat (l : List Nat) : runsFlat (groupRuns l) = l := by
  induction l with
  | nil => rfl
  | cons x xs ih =>
    rw [show groupRuns (x :: xs) = groupCons x (groupRuns xs) from rfl]
    cases hgs : groupRuns xs with
    | nil =>
      rw [hgs] at ih
      have hxs : [] = xs := ih
      rw [← hxs]
      simp [groupCons, runsFlat]
    | cons g rest =>
      rw [hgs] at ih
      obtain ⟨y, k⟩ := g
      rw [runsFlat_cons] at ih
      by_cases hxy : x = y
      · simp only [groupCons, if_pos hxy]
        rw [runsFlat_cons, List.replicate_succ, List.cons_append, ih, hxy]
      · simp only [groupCons, if_neg hxy]
        rw [runsFlat_cons, runsFlat_cons, ih]
        simp

theorem groupRuns_pos (l : List Nat) : ∀ g ∈ groupRuns l, 1 ≤ g.2 := by
  induction l with
  | nil => intro g hg; simp [groupRuns] at hg
  | cons x xs ih =>
    intro g hg
    rw [show groupRuns (x :: xs) = groupCons x (groupRuns xs) from rfl] at hg
    cases hgs : groupRuns xs with
    | nil =>
      rw [hgs] at hg
      simp [groupCons] at hg
      simp [hg]
    | cons g2 rest =>
      rw [hgs] at hg
      obtain ⟨y, k⟩ := g2
      by_cases hxy : x = y
      · simp only [groupCons, if_pos hxy] at hg
        rcases List.mem_cons.1 hg with rfl | h
        · simp
        · exact ih g (hgs ▸ List.mem_cons_of_mem _ h)
      · simp only [groupCons, if_neg hxy] at hg
        rcases List.mem_cons.1 hg with rfl | h
        · simp
        · exact ih g (hgs ▸ h)

theorem groupRuns_chain (l : List Nat) :
    List.Chain' (fun a b : Nat × Nat => a.1 ≠ b.1) (groupRuns l) := by
  induction l with
  | nil => simp [groupRuns]
  | cons x xs ih =>
    rw [show groupRuns (x :: xs) = groupCons x (groupRuns xs) from rfl]
    cases hgs : groupRuns xs with
    | nil => simp [groupCons]
    | cons g rest =>
      rw [hgs] at ih
      obtain ⟨y, k⟩ := g
      by_cases hxy : x = y
      · simp only [groupCons, if_pos hxy]
        rw [List.chain'_cons'] at ih ⊢
        exact ih
      · simp only [groupCons, if_neg hxy]
        exact List.Chain'.cons hxy ih

theorem getD_replicate {α : Type} (n : Nat) (a : α) (i : Nat) (d : α) :
    (List.replicate n a).getD i d = if i < n then a else d := by
  induction n generalizing i with
  | zero => simp
  | succ k ih =>
    cases i with
    | zero => simp [List.replicate_succ]
    | succ m =>
      rw [List.replicate_succ, List.getD_cons_succ, ih]
      by_cases h : m < k
      · rw [if_pos h, if_pos (by omega)]
      · rw [if_neg h, if_neg (by omega)]

theorem findSome?_some_mem {α β : Type} (f : α → Option β) (l : List α) (b : β)
    (h : l.findSome? f = some b) : ∃ a ∈ l, f a = some b := by
  induction l with
  | nil => simp [List.findSome?_nil] at h
  | cons x xs ih =>
    rw [List.findSome?_cons] at h
    cases hfx : f x with
    | some y =>
      rw [hfx] at h
      refine ⟨x, List.mem_cons_self x xs, ?_⟩
      rw [hfx]
      exact h
    | none =>
      rw [hfx] at h
      obtain ⟨a, ha, hfa⟩ := ih h
      exact ⟨a, List.mem_cons_of_mem x ha, hfa⟩

theorem findSome?_none_all {α β : Type} (f : α → Option β) (l : List α)
    (h : l.findSome? f = none) : ∀ a ∈ l, f a = none := by
  induction l with
  | nil => intro a ha; simp at ha
  | cons x xs ih =>
    rw [List.findSome?_cons] at h
    cases hfx : f x with
    | some y =>
      rw [hfx] at h
      exact Option.noConfusion h
    | none =>
      rw [hfx] at h
      intro a ha
      rcases List.mem_cons.1 ha with rfl | ha2
      · exact hfx
      · exact ih h a ha2

theorem lineWin_ne_zero (l : List Nat) (m : Nat) (h : lineWin l = some m) : m ≠ 0 := by
  obtain ⟨g, _, hfg⟩ := findSome?_some_mem _ _ _ h
  by_cases hc : g.1 ≠ 0 ∧ NEEDED_TO_WIN ≤ g.2
  · rw [if_pos hc] at hfg
    cases hfg
    exact hc.1
  · rw [if_neg hc] at hfg
    cases hfg

/-- Soundness of the line scan: a reported mark really has a long enough
run of consecutive cells in the line. -/
theorem lineWin_sound (l : List Nat) (m : Nat) (h : lineWin l = some m) :
    m ≠ 0 ∧ ∃ i : Nat, i + NEEDED_TO_WIN ≤ l.length ∧
      ∀ t < NEEDED_TO_WIN, l.getD (i + t) 0 = m := by
  refine ⟨lineWin_ne_zero l m h, ?_⟩
  obtain ⟨g, hg, hfg⟩ := findSome?_some_mem _ _ _ h
  by_cases hc : g.1 ≠ 0 ∧ NEEDED_TO_WIN ≤ g.2
  · rw [if_pos hc] at hfg
    have hgm : g.1 = m := by cases hfg; rfl
    obtain ⟨pre, suf, hsplit⟩ := List.append_of_mem hg
    have hflat := groupRuns_flat l
    rw [hsplit, runsFlat_append, runsFlat_cons] at hflat
    refine ⟨(runsFlat pre).length, ?_, ?_⟩
    · rw [← hflat]
      simp only [List.length_append, List.length_replicate]
      omega
    · intro t ht
      rw [← hflat, List.getD_append_right _ _ _ _ (by omega)]
      have : (runsFlat pre).length + t - (runsFlat pre).length = t := by omega
      rw [this, List.getD_append _ _ _ _ (by simp only [List.length_replicate]; omega),
        getD_replicate, if_pos (by omega), hgm]
  · rw [if_neg hc] at hfg
    cases hfg

/-- If every group of a run-length encoding is empty-keyed or shorter
than the winning length, the flattened list has no winning run. -/
theorem noRun_of_groups_fail (gs : List (Nat × Nat))
    (hchain : List.Chain' (fun a b : Nat × Nat => a.1 ≠ b.1) gs)
    (hfail : ∀ g ∈ gs, g.1 = 0 ∨ g.2 < NEEDED_TO_WIN)
    (hpos : ∀ g ∈ gs, 1 ≤ g.2) :
    ∀ m, m ≠ 0 → ∀ i, i + NEEDED_TO_WIN ≤ (runsFlat gs).length →
      ¬ (∀ t < NEEDED_TO_WIN, (runsFlat gs).getD (i + t) 0 = m) := by
  induction gs with
  | nil =>
    intro m hm i hi
    have : (runsFlat ([] : List (Nat × Nat))).length = 0 := rfl
    rw [this] at hi
    have hK : 1 ≤ NEEDED_TO_WIN := by decide
    omega
  | cons g gs ih =>
    intro m hm i hi hrun
    rw [runsFlat_cons] at hi hrun
    by_cases hik : g.2 ≤ i
    · refine ih hchain.tail (fun g2 h2 => hfail g2 (List.mem_cons_of_mem g h2))
        (fun g2 h2 => hpos g2 (List.mem_cons_of_mem g h2)) m hm (i - g.2) ?_ ?_
      · simp only [List.length_append, List.length_replicate] at hi
        omega
      · intro t ht
        have := hrun t ht
        rw [List.getD_append_right _ _ _ _ (by simp only [List.length_replicate]; omega)] at this
        have heq : i + t - (List.replicate g.2 g.1).length = i - g.2 + t := by
          simp only [List.length_replicate]
          omega
        rw [heq] at this
        exact this
    · push_neg at hik
      have hK : NEEDED_TO_WIN = 3 := rfl
      have h0 := hrun 0 (by omega)
      rw [List.getD_append _ _ _ _ (by simp only [List.length_replicate]; omega),
        getD_replicate, if_pos (by omega)] at h0
      have hg1 : g.1 = m := by simpa using h0
      have hgfail := hfail g (List.mem_cons_self g gs)
      have hglen : g.2 < NEEDED_TO_WIN := by
        rcases hgfail with h | h
        · exact absurd (hg1 ▸ h) hm
        · exact h
      have ht2 := hrun (g.2 - i) (by omega)
      have hidx : i + (g.2 - i) = g.2 := by omega
      rw [hidx, List.getD_append_right _ _ _ _ (by simp only [List.length_replicate]; omega)] at ht2
      have hidx2 : g.2 - (List.replicate g.2 g.1).length = 0 := by
        simp only [List.length_replicate]
        omega
      rw [hidx2] at ht2
      cases gs with
      | nil =>
        simp only [List.length_append, List.length_replicate] at hi
        have : (runsFlat ([] : List (Nat × Nat))).length = 0 := rfl
        omega
      | cons g2 gs2 =>
        rw [runsFlat_cons, List.getD_append _ _ _ _ (by
          simp only [List.length_replicate]
          exact hpos g2 (List.mem_cons_of_mem g (List.mem_cons_self g2 gs2))),
          getD_replicate,
          if_pos (show 0 < g2.2 from hpos g2
            (List.mem_cons_of_mem g (List.mem_cons_self g2 gs2)))] at ht2
        have hne : g.1 ≠ g2.1 := (List.chain'_cons.1 hchain).1
        rw [hg1, ht2] at hne
        exact hne rfl

/-- Completeness of the line scan: if the scan reports nothing, the line
has no winning run for any nonempty mark. -/
theorem lineWin_none_noRun (l : List Nat) (h : lineWin l = none) (m : Nat) (hm : m ≠ 0) :
    ∀ i, i + NEEDED_TO_WIN ≤ l.length → ¬ (∀ t < NEEDED_TO_WIN, l.getD (i + t) 0 = m) := by
  have hfail : ∀ g ∈ groupRuns l, g.1 = 0 ∨ g.2 < NEEDED_TO_WIN := by
    intro g hg
    have := findSome?_none_all _ _ h g hg
    by_cases hc : g.1 ≠ 0 ∧ NEEDED_TO_WIN ≤ g.2
    · rw [if_pos hc] at this
      cases this
    · push_neg at hc
      by_cases hz : g.1 = 0
      · exact Or.inl hz
      · exact Or.inr (hc hz)
  have := noRun_of_groups_fail (groupRuns l) (groupRuns_chain l) hfail (groupRuns_pos l) m hm
  rw [groupRuns_flat] at this
  exact this

theorem mem_offsetsK (n : Nat) (o : Int) :
    o ∈ offsetsK n ↔ (NEEDED_TO_WIN : Int) - n ≤ o ∧ o ≤ (n : Int) - NEEDED_TO_WIN := by
  have hK : NEEDED_TO_WIN = 3 := rfl
  unfold offsetsK
  by_cases h : NEEDED_TO_WIN ≤ n
  · rw [if_pos h]
    constructor
    · intro hmem
      obtain ⟨t, ht, hrfl⟩ := List.mem_map.1 hmem
      rw [List.mem_range] at ht
      subst hrfl
      omega
    · intro hh
      apply List.mem_map.2
      refine ⟨(o - ((NEEDED_TO_WIN : Int) - n)).toNat, ?_, ?_⟩
      · rw [List.mem_range]
        omega
      · omega
  · rw [if_neg h]
    constructor
    · intro hmem
      exact absurd hmem (List.not_mem_nil o)
    · intro hh
      exfalso
      omega

theorem mem_offsetsFull (n : Nat) (o : Int) :
    o ∈ offsetsFull n ↔ (1 : Int) - n ≤ o ∧ o ≤ (n : Int) - 1 := by
  unfold offsetsFull
  by_cases h : 1 ≤ n
  · rw [if_pos h]
    constructor
    · intro hmem
      obtain ⟨t, ht, hrfl⟩ := List.mem_map.1 hmem
      rw [List.mem_range] at ht
      subst hrfl
      omega
    · intro hh
      apply List.mem_map.2
      refine ⟨(o - ((1 : Int) - n)).toNat, ?_, ?_⟩
      · rw [List.mem_range]
        omega
      · omega
  · rw [if_neg h]
    constructor
    · intro hmem
      exact absurd hmem (List.not_mem_nil o)
    · intro hh
      exfalso
      omega

theorem diagOf_length (b : GomokuBoard) (o : Int) :
    (diagOf b o).length = size b - o.natAbs := by
  unfold diagOf
  split_ifs with h
  · rw [List.length_map, List.length_range]
    congr 1
    omega
  · rw [List.length_map, List.length_range]
    congr 1
    omega

theorem size_flipud (b : GomokuBoard) : size (flipud b) = size b :=
  List.length_reverse b.rows

/-- Runs found by the scanned diagonal family are runs of a full-family
diagonal, and conversely every full-family diagonal long enough to host a
run is scanned. -/
theorem scansNone_noRun (b : GomokuBoard)
    (h1 : scanLines b.rows = none) (h2 : scanLines (colsOf b) = none)
    (h3 : scanLines (diagsK b) = none) (h4 : scanLines (antiDiagsK b) = none) :
    ∀ m, ¬ hasRun b m := by
  rintro m ⟨hm, l, hl, i, hlen, hrun⟩
  unfold allLines at hl
  have hdiag : ∀ (c : GomokuBoard), size c = size b →
      scanLines ((offsetsK (size b)).map (diagOf c)) = none →
      l ∈ (offsetsFull (size b)).map (diagOf c) → False := by
    intro c hc hscan hmem
    obtain ⟨o, ho, rfl⟩ := List.mem_map.1 hmem
    have hlen2 : (diagOf c o).length = size b - o.natAbs := by
      rw [diagOf_length, hc]
    have hKn : o.natAbs ≤ size b - NEEDED_TO_WIN ∧ NEEDED_TO_WIN ≤ size b := by
      have hK : NEEDED_TO_WIN = 3 := rfl
      rw [hlen2] at hlen
      constructor <;> omega
    have hoK : o ∈ offsetsK (size b) := by
      rw [mem_offsetsK]
      rcases hKn with ⟨ha, hb2⟩
      omega
    have := findSome?_none_all _ _ hscan (diagOf c o) (List.mem_map_of_mem (diagOf c) hoK)
    exact lineWin_none_noRun _ this m hm i hlen hrun
  rcases List.mem_append.1 hl with hl2 | hanti
  · rcases List.mem_append.1 hl2 with hl3 | hdg
    · rcases List.mem_append.1 hl3 with hrow | hcol
      · exact lineWin_none_noRun l (findSome?_none_all _ _ h1 l hrow) m hm i hlen hrun
      · exact lineWin_none_noRun l (findSome?_none_all _ _ h2 l hcol) m hm i hlen hrun
    · exact hdiag b rfl h3 hdg
  · exact hdiag (flipud b) (size_flipud b) h4 hanti

/-- A successful scan of one of the four scanned families yields a run in
a line of `allLines`. -/
theorem scan_some_hasRun (b : GomokuBoard) (m : Nat)
    (h : scanLines b.rows = some m ∨ scanLines (colsOf b) = some m ∨
      scanLines (diagsK b) = some m ∨ scanLines (antiDiagsK b) = some m) :
    hasRun b m := by
  have hline : ∃ l ∈ allLines b, lineWin l = some m := by
    unfold allLines
    rcases h with h | h | h | h
    · obtain ⟨l, hl, hw⟩ := findSome?_some_mem _ _ _ h
      refine ⟨l, ?_, hw⟩
      simp only [List.mem_append]
      tauto
    · obtain ⟨l, hl, hw⟩ := findSome?_some_mem _ _ _ h
      refine ⟨l, ?_, hw⟩
      simp only [List.mem_append]
      tauto
    · obtain ⟨l, hl, hw⟩ := findSome?_some_mem _ _ _ h
      obtain ⟨o, ho, rfl⟩ := List.mem_map.1 hl
      have hmem2 : diagOf b o ∈ (offsetsFull (size b)).map (diagOf b) := by
        apply List.mem_map_of_mem
        rw [mem_offsetsFull]
        have := (mem_offsetsK _ _).1 ho
        have hK : NEEDED_TO_WIN = 3 := rfl
        omega
      refine ⟨diagOf b o, ?_, hw⟩
      simp only [List.mem_append]
      tauto
    · obtain ⟨l, hl, hw⟩ := findSome?_some_mem _ _ _ h
      obtain ⟨o, ho, rfl⟩ := List.mem_map.1 hl
      have hmem2 : diagOf (flipud b) o ∈ (offsetsFull (size b)).map (diagOf (flipud b)) := by
        apply List.mem_map_of_mem
        rw [mem_offsetsFull]
        have := (mem_offsetsK _ _).1 ho
        have hK : NEEDED_TO_WIN = 3 := rfl
        omega
      refine ⟨diagOf (flipud b) o, ?_, hw⟩
      simp only [List.mem_append]
      tauto
  obtain ⟨l, hl, hw⟩ := hline
  obtain ⟨hm, i, hlen, hrun⟩ := lineWin_sound l m hw
  exact ⟨hm, l, hl, i, hlen, hrun⟩

theorem scanLines_ne_zero (ls : List (List Nat)) (m : Nat) (h : scanLines ls = some m) :
    m ≠ 0 := by
  obtain ⟨l, _, hw⟩ := findSome?_some_mem _ _ _ h
  exact lineWin_ne_zero l m hw

/-- Either some scan succeeds — and the reported mark has a genuine run —
or no mark has a run anywhere and `winner` falls through to the
draw/ongoing branch. -/
theorem winner_dichotomy (b : GomokuBoard) :
    (∃ m1, winner b = some m1 ∧ m1 ≠ 0 ∧ hasRun b m1) ∨
    ((∀ m, ¬ hasRun b m) ∧ winner b = (if isFull b then some 0 else none)) := by
  cases h1 : scanLines b.rows with
  | some m1 =>
    exact Or.inl ⟨m1, by unfold winner; rw [h1], scanLines_ne_zero _ _ h1,
      scan_some_hasRun b m1 (Or.inl h1)⟩
  | none =>
    cases h2 : scanLines (colsOf b) with
    | some m1 =>
      exact Or.inl ⟨m1, by unfold winner; rw [h1, h2], scanLines_ne_zero _ _ h2,
        scan_some_hasRun b m1 (Or.inr (Or.inl h2))⟩
    | none =>
      cases h3 : scanLines (diagsK b) with
      | some m1 =>
        exact Or.inl ⟨m1, by unfold winner; rw [h1, h2, h3], scanLines_ne_zero _ _ h3,
          scan_some_hasRun b m1 (Or.inr (Or.inr (Or.inl h3)))⟩
      | none =>
        cases h4 : scanLines (antiDiagsK b) with
        | some m1 =>
          exact Or.inl ⟨m1, by unfold winner; rw [h1, h2, h3, h4], scanLines_ne_zero _ _ h4,
            scan_some_hasRun b m1 (Or.inr (Or.inr (Or.inr h4)))⟩
        | none =>
          exact Or.inr ⟨scansNone_noRun b h1 h2 h3 h4, by unfold winner; rw [h1, h2, h3, h4]⟩

/-- C4 counterexample: on a board where both marks have completed runs,
`winner` reports only the first-detected mark (the X row), so "reports
Win(mark) exactly when that mark has a run" fails for O: O has a run but
Win(O) is not reported. -/
theorem winner_reports_first_detected_mark_cex :
    winner ⟨[[1, 1, 1], [2, 2, 2], [0, 0, 0]]⟩ = some 1 ∧
    hasRun ⟨[[1, 1, 1], [2, 2, 2], [0, 0, 0]]⟩ 2 ∧
    winner ⟨[[1, 1, 1], [2, 2, 2], [0, 0, 0]]⟩ ≠ some 2 := by
  refine ⟨by decide, ⟨by decide, [2, 2, 2], ?_, 0, by decide, ?_⟩, by decide⟩
  · decide
  · decide

/-- C4 amended: a reported winning mark always has a qualifying run; some
Win is reported exactly when some mark has a run (rows, columns, or any
diagonal in either direction); Draw is reported exactly when no run
exists and the board is full; Ongoing exactly when no run exists and the
board is not full.  (Only the per-mark completeness of the original claim
fails, on boards where two marks both have runs.) -/
theorem winner_classification_amended (b : GomokuBoard) :
    (∀ m, winner b = some m → m ≠ 0 → hasRun b m) ∧
    ((∃ m, hasRun b m) → ∃ m2, winner b = some m2 ∧ m2 ≠ 0) ∧
    (winner b = some 0 ↔ (∀ m, ¬ hasRun b m) ∧ isFull b = true) ∧
    (winner b = none ↔ (∀ m, ¬ hasRun b m) ∧ isFull b = false) := by
  rcases winner_dichotomy b with ⟨m1, hw, hz, hR⟩ | ⟨hno, hw⟩
  · refine ⟨?_, ?_, ?_, ?_⟩
    · intro m hm _
      rw [hw] at hm
      injection hm with hm2
      rw [← hm2]
      exact hR
    · intro _
      exact ⟨m1, hw, hz⟩
    · rw [hw]
      constructor
      · intro hmm
        injection hmm with hmm2
        exact absurd hmm2 hz
      · rintro ⟨hno2, _⟩
        exact absurd hR (hno2 m1)
    · rw [hw]
      constructor
      · intro hmm
        exact Option.noConfusion hmm
      · rintro ⟨hno2, _⟩
        exact absurd hR (hno2 m1)
  · refine ⟨?_, ?_, ?_, ?_⟩
    · intro m hm hmz
      exfalso
      rw [hw] at hm
      by_cases hf : isFull b = true
      · rw [if_pos hf] at hm
        injection hm with h2
        exact hmz h2.symm
      · rw [if_neg hf] at hm
        exact Option.noConfusion hm
    · rintro ⟨m, hm⟩
      exact absurd hm (hno m)
    · rw [hw]
      by_cases hf : isFull b = true
      · rw [if_pos hf]
        simp [hno, hf]
      · have hf2 : isFull b = false := by simpa using hf
        rw [if_neg hf]
        simp [hno, hf2]
    · rw [hw]
      by_cases hf : isFull b = true
      · rw [if_pos hf]
        simp [hno, hf]
      · have hf2 : isFull b = false := by simpa using hf
        rw [if_neg hf]
        simp [hno, hf2]

/-- Witness for C4 amended at a concrete board with a main-diagonal win. -/
theorem winner_classification_amended_witness :
    winner ⟨[[1, 2, 1], [2, 1, 2], [2, 1, 1]]⟩ = some 1 ∧ (1 : Nat) ≠ 0 ∧
    hasRun ⟨[[1, 2, 1], [2, 1, 2], [2, 1, 1]]⟩ 1 :=
  ⟨by decide, by decide,
    (winner_classification_amended ⟨[[1, 2, 1], [2, 1, 2], [2, 1, 1]]⟩).1 1
      (by decide) (by decide)⟩

/-! ### Search-engine lemmas.  The loops are characterized first, then a
single fuel induction relates the minimax and alpha-beta values. -/

theorem mmMaxLoop_cons_some (eval : GomokuBoard → Option Int) (nb : GomokuBoard)
    (rest : List GomokuBoard) (mv : Int) (sol : List GomokuBoard) (v : Int)
    (hv : eval nb = some v) :
    mmMaxLoop eval (nb :: rest) mv sol =
      if mv < v then mmMaxLoop eval rest v (sol ++ [nb])
      else mmMaxLoop eval rest mv sol := by
  simp only [mmMaxLoop, hv]

theorem mmMinLoop_cons_some (eval : GomokuBoard → Option Int) (nb : GomokuBoard)
    (rest : List GomokuBoard) (mv : Int) (sol : List GomokuBoard) (v : Int)
    (hv : eval nb = some v) :
    mmMinLoop eval (nb :: rest) mv sol =
      if v < mv then mmMinLoop eval rest v (sol ++ [nb])
      else mmMinLoop eval rest mv sol := by
  simp only [mmMinLoop, hv]

theorem abMaxLoop_cons_some (eval : GomokuBoard → Int → Int → Option Int) (nb : GomokuBoard)
    (rest : List GomokuBoard) (alpha beta mv : Int) (sol : List GomokuBoard) (v : Int)
    (hv : eval nb alpha beta = some v) :
    abMaxLoop eval (nb :: rest) alpha beta mv sol =
      (if beta ≤ max alpha (if mv < v then v else mv) then
        some ((if mv < v then v else mv), (if mv < v then sol ++ [nb] else sol))
      else abMaxLoop eval rest (max alpha (if mv < v then v else mv)) beta
        (if mv < v then v else mv) (if mv < v then sol ++ [nb] else sol)) := by
  simp only [abMaxLoop, hv]

theorem abMinLoop_cons_some (eval : GomokuBoard → Int → Int → Option Int) (nb : GomokuBoard)
    (rest : List GomokuBoard) (alpha beta mv : Int) (sol : List GomokuBoard) (v : Int)
    (hv : eval nb alpha beta = some v) :
    abMinLoop eval (nb :: rest) alpha beta mv sol =
      (if min beta (if v < mv then v else mv) ≤ alpha then
        some ((if v < mv then v else mv), (if v < mv then sol ++ [nb] else sol))
      else abMinLoop eval rest alpha (min beta (if v < mv then v else mv))
        (if v < mv then v else mv) (if v < mv then sol ++ [nb] else sol)) := by
  simp only [abMinLoop, hv]

theorem mmValue_succ (fuel : Nat) (b : GomokuBoard) (p : Nat) :
    mmValue (fuel + 1) b p =
      (if p = 2 then
        if winner b = some 0 then some ((0 : Int), none)
        else if winner b = some 1 then some (-1, none)
        else if winner b = some 2 then some (1, none)
        else (mmMaxLoop (fun nb => (mmValue fuel nb (switch_player p)).map Prod.fst)
          (next_boards b p) (-1) []).map fun r => (r.1, some r.2)
      else
        if winner b = some 0 then some (0, none)
        else if winner b = some 1 then some (-1, none)
        else if winner b = some 2 then some (1, none)
        else (mmMinLoop (fun nb => (mmValue fuel nb (switch_player p)).map Prod.fst)
          (next_boards b p) 1 []).map fun r => (r.1, some r.2)) := rfl

theorem abValue_succ (fuel : Nat) (b : GomokuBoard) (p : Nat) (alpha beta : Int) :
    abValue (fuel + 1) b p alpha beta =
      (if p = 2 then
        if winner b = some 0 then some ((0 : Int), none)
        else if winner b = some 1 then some (-1, none)
        else if winner b = some 2 then some (1, none)
        else (abMaxLoop (fun nb a2 b2 => (abValue fuel nb (switch_player p) a2 b2).map Prod.fst)
          (next_boards b p) alpha beta (-1) []).map fun r => (r.1, some r.2)
      else
        if winner b = some 0 then some (0, none)
        else if winner b = some 1 then some (-1, none)
        else if winner b = some 2 then some (1, none)
        else (abMinLoop (fun nb a2 b2 => (abValue fuel nb (switch_player p) a2 b2).map Prod.fst)
          (next_boards b p) alpha beta 1 []).map fun r => (r.1, some r.2)) := rfl

/-- Every successor board is well-formed and has exactly one fewer empty
cell. -/
theorem next_boards_facts (b : GomokuBoard) (p : Nat) (hb : Wf b) (hp : p ≠ 0) :
    ∀ c ∈ next_boards b p, Wf c ∧ emptyCount c + 1 = emptyCount b := by
  intro c hc
  obtain ⟨ij, hij, hrfl⟩ := List.mem_map.1 hc
  have h1 : Wf (setCell b ij.1 ij.2 p) := Wf_setCell b ij.1 ij.2 p hb
  have h2 : emptyCount (setCell b ij.1 ij.2 p) + 1 = emptyCount b :=
    emptyCount_setCell b ij.1 ij.2 p hb hij hp
  have hc2 : c = setCell b ij.1 ij.2 p := hrfl.symm
  rw [hc2]
  exact ⟨h1, h2⟩

/-- Totality, range and monotonicity of the maximize loop given a total
in-range child evaluator. -/
theorem mmMaxLoop_total (eval : GomokuBoard → Option Int) :
    ∀ l : List GomokuBoard, (∀ c ∈ l, ∃ w, eval c = some w ∧ -1 ≤ w ∧ w ≤ 1) →
      ∀ mv sol, -1 ≤ mv → mv ≤ 1 →
        ∃ r rs, mmMaxLoop eval l mv sol = some (r, rs) ∧ mv ≤ r ∧ -1 ≤ r ∧ r ≤ 1 := by
  intro l
  induction l with
  | nil =>
    intro _ mv sol h1 h2
    exact ⟨mv, sol, rfl, le_refl mv, h1, h2⟩
  | cons nb rest ih =>
    intro h mv sol h1 h2
    obtain ⟨v, hv, hv1, hv2⟩ := h nb (List.mem_cons_self nb rest)
    have hrest := fun c hc => h c (List.mem_cons_of_mem nb hc)
    rw [mmMaxLoop_cons_some eval nb rest mv sol v hv]
    by_cases hlt : mv < v
    · rw [if_pos hlt]
      obtain ⟨r, rs, heq, a1, a2, a3⟩ := ih hrest v (sol ++ [nb]) hv1 hv2
      exact ⟨r, rs, heq, by omega, a2, a3⟩
    · rw [if_neg hlt]
      exact ih hrest mv sol h1 h2

/-- Totality, range and monotonicity of the minimize loop. -/
theorem mmMinLoop_total (eval : GomokuBoard → Option Int) :
    ∀ l : List GomokuBoard, (∀ c ∈ l, ∃ w, eval c = some w ∧ -1 ≤ w ∧ w ≤ 1) →
      ∀ mv sol, -1 ≤ mv → mv ≤ 1 →
        ∃ r rs, mmMinLoop eval l mv sol = some (r, rs) ∧ r ≤ mv ∧ -1 ≤ r ∧ r ≤ 1 := by
  intro l
  induction l with
  | nil =>
    intro _ mv sol h1 h2
    exact ⟨mv, sol, rfl, le_refl mv, h1, h2⟩
  | cons nb rest ih =>
    intro h mv sol h1 h2
    obtain ⟨v, hv, hv1, hv2⟩ := h nb (List.mem_cons_self nb rest)
    have hrest := fun c hc => h c (List.mem_cons_of_mem nb hc)
    rw [mmMinLoop_cons_some eval nb rest mv sol v hv]
    by_cases hlt : v < mv
    · rw [if_pos hlt]
      obtain ⟨r, rs, heq, a1, a2, a3⟩ := ih hrest v (sol ++ [nb]) hv1 hv2
      exact ⟨r, rs, heq, by omega, a2, a3⟩
    · rw [if_neg hlt]
      exact ih hrest mv sol h1 h2

/-- A maximize loop whose running maximum already saturates the value
range never changes state. -/
theorem mmMaxLoop_saturated (eval : GomokuBoard → Option Int) :
    ∀ l : List GomokuBoard, (∀ c ∈ l, ∃ w, eval c = some w ∧ w ≤ 1) →
      ∀ sol, mmMaxLoop eval l 1 sol = some (1, sol) := by
  intro l
  induction l with
  | nil => intro _ sol; rfl
  | cons nb rest ih =>
    intro h sol
    obtain ⟨v, hv, hv2⟩ := h nb (List.mem_cons_self nb rest)
    rw [mmMaxLoop_cons_some eval nb rest 1 sol v hv, if_neg (by omega)]
    exact ih (fun c hc => h c (List.mem_cons_of_mem nb hc)) sol

theorem mmMaxLoop_improve (eval : GomokuBoard → Option Int) (nb : GomokuBoard)
    (rest : List GomokuBoard) (mv : Int) (sol : List GomokuBoard) (v : Int)
    (hv : eval nb = some v) (hlt : mv < v) :
    mmMaxLoop eval (nb :: rest) mv sol = mmMaxLoop eval rest v (sol ++ [nb]) := by
  rw [mmMaxLoop_cons_some eval nb rest mv sol v hv, if_pos hlt]

theorem mmMaxLoop_keep (eval : GomokuBoard → Option Int) (nb : GomokuBoard)
    (rest : List GomokuBoard) (mv : Int) (sol : List GomokuBoard) (v : Int)
    (hv : eval nb = some v) (hlt : ¬ mv < v) :
    mmMaxLoop eval (nb :: rest) mv sol = mmMaxLoop eval rest mv sol := by
  rw [mmMaxLoop_cons_some eval nb rest mv sol v hv, if_neg hlt]

theorem mmMinLoop_improve (eval : GomokuBoard → Option Int) (nb : GomokuBoard)
    (rest : List GomokuBoard) (mv : Int) (sol : List GomokuBoard) (v : Int)
    (hv : eval nb = some v) (hlt : v < mv) :
    mmMinLoop eval (nb :: rest) mv sol = mmMinLoop eval rest v (sol ++ [nb]) := by
  rw [mmMinLoop_cons_some eval nb rest mv sol v hv, if_pos hlt]

theorem mmMinLoop_keep (eval : GomokuBoard → Option Int) (nb : GomokuBoard)
    (rest : List GomokuBoard) (mv : Int) (sol : List GomokuBoard) (v : Int)
    (hv : eval nb = some v) (hlt : ¬ v < mv) :
    mmMinLoop eval (nb :: rest) mv sol = mmMinLoop eval rest mv sol := by
  rw [mmMinLoop_cons_some eval nb rest mv sol v hv, if_neg hlt]

theorem abMaxLoop_improve (eval : GomokuBoard → Int → Int → Option Int) (nb : GomokuBoard)
    (rest : List GomokuBoard) (alpha beta mv : Int) (sol : List GomokuBoard) (v : Int)
    (hv : eval nb alpha beta = some v) (hlt : mv < v) :
    abMaxLoop eval (nb :: rest) alpha beta mv sol =
      (if beta ≤ max alpha v then some (v, sol ++ [nb])
       else abMaxLoop eval rest (max alpha v) beta v (sol ++ [nb])) := by
  rw [abMaxLoop_cons_some eval nb rest alpha beta mv sol v hv, if_pos hlt, if_pos hlt]

theorem abMaxLoop_keep (eval : GomokuBoard → Int → Int → Option Int) (nb : GomokuBoard)
    (rest : List GomokuBoard) (alpha beta mv : Int) (sol : List GomokuBoard) (v : Int)
    (hv : eval nb alpha beta = some v) (hlt : ¬ mv < v) :
    abMaxLoop eval (nb :: rest) alpha beta mv sol =
      (if beta ≤ max alpha mv then some (mv, sol)
       else abMaxLoop eval rest (max alpha mv) beta mv sol) := by
  rw [abMaxLoop_cons_some eval nb rest alpha beta mv sol v hv, if_neg hlt, if_neg hlt]

theorem abMinLoop_improve (eval : GomokuBoard → Int → Int → Option Int) (nb : GomokuBoard)
    (rest : List GomokuBoard) (alpha beta mv : Int) (sol : List GomokuBoard) (v : Int)
    (hv : eval nb alpha beta = some v) (hlt : v < mv) :
    abMinLoop eval (nb :: rest) alpha beta mv sol =
      (if min beta v ≤ alpha then some (v, sol ++ [nb])
       else abMinLoop eval rest alpha (min beta v) v (sol ++ [nb])) := by
  rw [abMinLoop_cons_some eval nb rest alpha beta mv sol v hv, if_pos hlt, if_pos hlt]

theorem abMinLoop_keep (eval : GomokuBoard → Int → Int → Option Int) (nb : GomokuBoard)
    (rest : List GomokuBoard) (alpha beta mv : Int) (sol : List GomokuBoard) (v : Int)
    (hv : eval nb alpha beta = some v) (hlt : ¬ v < mv) :
    abMinLoop eval (nb :: rest) alpha beta mv sol =
      (if min beta mv ≤ alpha then some (mv, sol)
       else abMinLoop eval rest alpha (min beta mv) mv sol) := by
  rw [abMinLoop_cons_some eval nb rest alpha beta mv sol v hv, if_neg hlt, if_neg hlt]

/-- Child contract for the paired loop lemmas: both evaluators are total
on the child, the minimax value is in range, and the alpha-beta value
satisfies the fail-soft window bounds with respect to it. -/
def ChildOk (evalMM : GomokuBoard → Option Int)
    (evalAB : GomokuBoard → Int → Int → Option Int) (c : GomokuBoard) : Prop :=
  ∃ w, evalMM c = some w ∧ -1 ≤ w ∧ w ≤ 1 ∧
    ∀ alpha beta : Int, -1 ≤ alpha → alpha < beta → beta ≤ 1 →
      ∃ v, evalAB c alpha beta = some v ∧ -1 ≤ v ∧ v ≤ 1 ∧
        (w ≤ alpha → v ≤ alpha) ∧ (alpha < w → w < beta → v = w) ∧ (beta ≤ w → beta ≤ v)

/-- The maximize loops of minimax and alpha-beta, run side by side: the
alpha-beta running maximum satisfies the fail-soft window bounds with
respect to the minimax running maximum.  The invariant says the two
states either both still sit at or below `alpha`, or agree exactly (and
the stored `alpha` has caught up with them). -/
theorem pairedMaxLoop (evalMM : GomokuBoard → Option Int)
    (evalAB : GomokuBoard → Int → Int → Option Int) :
    ∀ l : List GomokuBoard, (∀ c ∈ l, ChildOk evalMM evalAB c) →
    ∀ alpha beta mvA mvT : Int, ∀ solA solT : List GomokuBoard,
      -1 ≤ mvA → mvA ≤ 1 → -1 ≤ mvT → mvT ≤ 1 →
      -1 ≤ alpha → alpha < beta → beta ≤ 1 →
      ((mvA ≤ alpha ∧ mvT ≤ alpha) ∨ (alpha = mvA ∧ mvA = mvT)) →
      ∃ W rsT, mmMaxLoop evalMM l mvT solT = some (W, rsT) ∧ mvT ≤ W ∧ -1 ≤ W ∧ W ≤ 1 ∧
        ∃ v rv, abMaxLoop evalAB l alpha beta mvA solA = some (v, rv) ∧
          mvA ≤ v ∧ -1 ≤ v ∧ v ≤ 1 ∧
          (W ≤ alpha → v ≤ alpha) ∧ (alpha < W → W < beta → v = W) ∧
          (beta ≤ W → beta ≤ v) := by
  intro l
  induction l with
  | nil =>
    intro hch alpha beta mvA mvT solA solT a1 a2 t1 t2 h5 h6 h7 hinv
    refine ⟨mvT, solT, rfl, le_refl _, t1, t2, mvA, solA, rfl, le_refl _, a1, a2, ?_, ?_, ?_⟩
    · intro hWa
      rcases hinv with ⟨ha, hb⟩ | ⟨ha, hb⟩ <;> omega
    · intro hx1 hx2
      rcases hinv with ⟨ha, hb⟩ | ⟨ha, hb⟩ <;> omega
    · intro hx1
      rcases hinv with ⟨ha, hb⟩ | ⟨ha, hb⟩ <;> omega
  | cons nb rest ih =>
    intro hch alpha beta mvA mvT solA solT a1 a2 t1 t2 h5 h6 h7 hinv
    obtain ⟨w, hw, hw1, hw2, hab⟩ := hch nb (List.mem_cons_self nb rest)
    obtain ⟨v, hv, hv1, hv2, hb1, hb2, hb3⟩ := hab alpha beta h5 h6 h7
    have hchr : ∀ c ∈ rest, ChildOk evalMM evalAB c :=
      fun c hc => hch c (List.mem_cons_of_mem nb hc)
    have hmmtot : ∀ c ∈ rest, ∃ w2, evalMM c = some w2 ∧ -1 ≤ w2 ∧ w2 ≤ 1 := by
      intro c hc
      obtain ⟨w2, hw2a, hw2b, hw2c, _⟩ := hchr c hc
      exact ⟨w2, hw2a, hw2b, hw2c⟩
    by_cases hc1 : w ≤ alpha
    · -- child value at or below alpha: the alpha-beta value also is
      have hva : v ≤ alpha := hb1 hc1
      rcases hinv with ⟨hA1, hA2⟩ | ⟨hB1, hB2⟩
      · -- regime A: both states ≤ alpha; improvements may occur below alpha
        by_cases hiT : mvT < w
        · rw [mmMaxLoop_improve evalMM nb rest mvT solT w hw hiT]
          by_cases hiA : mvA < v
          · rw [abMaxLoop_improve evalAB nb rest alpha beta mvA solA v hv hiA,
              max_eq_left hva, if_neg (by omega)]
            obtain ⟨W, rsT, e1, e2, e3, e4, v2, rv, f1, f2, f3, f4, g1, g2, g3⟩ :=
              ih hchr alpha beta v w (solA ++ [nb]) (solT ++ [nb])
                hv1 hv2 hw1 hw2 h5 h6 h7 (Or.inl ⟨hva, hc1⟩)
            exact ⟨W, rsT, e1, by omega, e3, e4, v2, rv, f1, by omega, f3, f4, g1, g2, g3⟩
          · rw [abMaxLoop_keep evalAB nb rest alpha beta mvA solA v hv hiA,
              max_eq_left hA1, if_neg (by omega)]
            obtain ⟨W, rsT, e1, e2, e3, e4, v2, rv, f1, f2, f3, f4, g1, g2, g3⟩ :=
              ih hchr alpha beta mvA w solA (solT ++ [nb])
                a1 a2 hw1 hw2 h5 h6 h7 (Or.inl ⟨hA1, hc1⟩)
            exact ⟨W, rsT, e1, by omega, e3, e4, v2, rv, f1, f2, f3, f4, g1, g2, g3⟩
        · rw [mmMaxLoop_keep evalMM nb rest mvT solT w hw hiT]
          by_cases hiA : mvA < v
          · rw [abMaxLoop_improve evalAB nb rest alpha beta mvA solA v hv hiA,
              max_eq_left hva, if_neg (by omega)]
            obtain ⟨W, rsT, e1, e2, e3, e4, v2, rv, f1, f2, f3, f4, g1, g2, g3⟩ :=
              ih hchr alpha beta v mvT (solA ++ [nb]) solT
                hv1 hv2 t1 t2 h5 h6 h7 (Or.inl ⟨hva, hA2⟩)
            exact ⟨W, rsT, e1, e2, e3, e4, v2, rv, f1, by omega, f3, f4, g1, g2, g3⟩
          · rw [abMaxLoop_keep evalAB nb rest alpha beta mvA solA v hv hiA,
              max_eq_left hA1, if_neg (by omega)]
            exact ih hchr alpha beta mvA mvT solA solT
              a1 a2 t1 t2 h5 h6 h7 (Or.inl ⟨hA1, hA2⟩)
      · -- regime B: neither loop improves
        rw [mmMaxLoop_keep evalMM nb rest mvT solT w hw (by omega),
          abMaxLoop_keep evalAB nb rest alpha beta mvA solA v hv (by omega),
          max_eq_left (by omega), if_neg (by omega)]
        exact ih hchr alpha beta mvA mvT solA solT a1 a2 t1 t2 h5 h6 h7 (Or.inr ⟨hB1, hB2⟩)
    · push_neg at hc1
      have hiT : mvT < w := by rcases hinv with ⟨x1, x2⟩ | ⟨x1, x2⟩ <;> omega
      rw [mmMaxLoop_improve evalMM nb rest mvT solT w hw hiT]
      by_cases hc2 : beta ≤ w
      · -- child at or above beta: the alpha-beta loop breaks
        have hvb : beta ≤ v := hb3 hc2
        have hiA : mvA < v := by rcases hinv with ⟨x1, x2⟩ | ⟨x1, x2⟩ <;> omega
        rw [abMaxLoop_improve evalAB nb rest alpha beta mvA solA v hv hiA,
          if_pos (by omega)]
        obtain ⟨W, rsT, heqW, hWge, hW1, hW2⟩ :=
          mmMaxLoop_total evalMM rest hmmtot w (solT ++ [nb]) hw1 hw2
        refine ⟨W, rsT, heqW, by omega, hW1, hW2,
          v, solA ++ [nb], rfl, by omega, hv1, hv2, ?_, ?_, ?_⟩
        · intro hx
          omega
        · intro hx1 hx2
          omega
        · intro hx1
          omega
      · -- alpha < w < beta: the alpha-beta value is exact and both loops
        -- improve to w; recurse in the exact regime with alpha = w
        push_neg at hc2
        have hvw : v = w := hb2 hc1 hc2
        have hiA : mvA < v := by
          rcases hinv with ⟨x1, x2⟩ | ⟨x1, x2⟩ <;> omega
        rw [abMaxLoop_improve evalAB nb rest alpha beta mvA solA v hv hiA,
          max_eq_right (by omega), if_neg (by omega), hvw]
        obtain ⟨W, rsT, heqW, hWge, hW1, hW2, v2, rv, heqV, hVge, hV1, hV2, hq1, hq2, hq3⟩ :=
          ih hchr w beta w w (solA ++ [nb]) (solT ++ [nb])
            hw1 hw2 hw1 hw2 hw1 hc2 h7 (Or.inr ⟨rfl, rfl⟩)
        refine ⟨W, rsT, heqW, by omega, hW1, hW2, v2, rv, heqV, by omega, hV1, hV2,
          ?_, ?_, ?_⟩
        · intro hx
          omega
        · intro hx1 hx2
          by_cases hWw : W ≤ w
          · have := hq1 hWw
            omega
          · exact hq2 (by omega) hx2
        · intro hx1
          exact hq3 hx1

/-- The minimize loops of minimax and alpha-beta, run side by side;
mirror image of `pairedMaxLoop`. -/
theorem pairedMinLoop (evalMM : GomokuBoard → Option Int)
    (evalAB : GomokuBoard → Int → Int → Option Int) :
    ∀ l : List GomokuBoard, (∀ c ∈ l, ChildOk evalMM evalAB c) →
    ∀ alpha beta mvA mvT : Int, ∀ solA solT : List GomokuBoard,
      -1 ≤ mvA → mvA ≤ 1 → -1 ≤ mvT → mvT ≤ 1 →
      -1 ≤ alpha → alpha < beta → beta ≤ 1 →
      ((beta ≤ mvA ∧ beta ≤ mvT) ∨ (beta = mvA ∧ mvA = mvT)) →
      ∃ W rsT, mmMinLoop evalMM l mvT solT = some (W, rsT) ∧ W ≤ mvT ∧ -1 ≤ W ∧ W ≤ 1 ∧
        ∃ v rv, abMinLoop evalAB l alpha beta mvA solA = some (v, rv) ∧
          v ≤ mvA ∧ -1 ≤ v ∧ v ≤ 1 ∧
          (W ≤ alpha → v ≤ alpha) ∧ (alpha < W → W < beta → v = W) ∧
          (beta ≤ W → beta ≤ v) := by
  intro l
  induction l with
  | nil =>
    intro hch alpha beta mvA mvT solA solT a1 a2 t1 t2 h5 h6 h7 hinv
    refine ⟨mvT, solT, rfl, le_refl _, t1, t2, mvA, solA, rfl, le_refl _, a1, a2, ?_, ?_, ?_⟩
    · intro hWa
      rcases hinv with ⟨ha, hb⟩ | ⟨ha, hb⟩ <;> omega
    · intro hx1 hx2
      rcases hinv with ⟨ha, hb⟩ | ⟨ha, hb⟩ <;> omega
    · intro hx1
      rcases hinv with ⟨ha, hb⟩ | ⟨ha, hb⟩ <;> omega
  | cons nb rest ih =>
    intro hch alpha beta mvA mvT solA solT a1 a2 t1 t2 h5 h6 h7 hinv
    obtain ⟨w, hw, hw1, hw2, hab⟩ := hch nb (List.mem_cons_self nb rest)
    obtain ⟨v, hv, hv1, hv2, hb1, hb2, hb3⟩ := hab alpha beta h5 h6 h7
    have hchr : ∀ c ∈ rest, ChildOk evalMM evalAB c :=
      fun c hc => hch c (List.mem_cons_of_mem nb hc)
    have hmmtot : ∀ c ∈ rest, ∃ w2, evalMM c = some w2 ∧ -1 ≤ w2 ∧ w2 ≤ 1 := by
      intro c hc
      obtain ⟨w2, hw2a, hw2b, hw2c, _⟩ := hchr c hc
      exact ⟨w2, hw2a, hw2b, hw2c⟩
    by_cases hc1 : beta ≤ w
    · -- child value at or above beta: the alpha-beta value also is
      have hvb : beta ≤ v := hb3 hc1
      rcases hinv with ⟨hA1, hA2⟩ | ⟨hB1, hB2⟩
      · -- regime A: both states ≥ beta; improvements may occur above beta
        by_cases hiT : w < mvT
        · rw [mmMinLoop_improve evalMM nb rest mvT solT w hw hiT]
          by_cases hiA : v < mvA
          · rw [abMinLoop_improve evalAB nb rest alpha beta mvA solA v hv hiA,
              min_eq_left hvb, if_neg (by omega)]
            obtain ⟨W, rsT, e1, e2, e3, e4, v2, rv, f1, f2, f3, f4, g1, g2, g3⟩ :=
              ih hchr alpha beta v w (solA ++ [nb]) (solT ++ [nb])
                hv1 hv2 hw1 hw2 h5 h6 h7 (Or.inl ⟨hvb, hc1⟩)
            exact ⟨W, rsT, e1, by omega, e3, e4, v2, rv, f1, by omega, f3, f4, g1, g2, g3⟩
          · rw [abMinLoop_keep evalAB nb rest alpha beta mvA solA v hv hiA,
              min_eq_left hA1, if_neg (by omega)]
            obtain ⟨W, rsT, e1, e2, e3, e4, v2, rv, f1, f2, f3, f4, g1, g2, g3⟩ :=
              ih hchr alpha beta mvA w solA (solT ++ [nb])
                a1 a2 hw1 hw2 h5 h6 h7 (Or.inl ⟨hA1, hc1⟩)
            exact ⟨W, rsT, e1, by omega, e3, e4, v2, rv, f1, f2, f3, f4, g1, g2, g3⟩
        · rw [mmMinLoop_keep evalMM nb rest mvT solT w hw hiT]
          by_cases hiA : v < mvA
          · rw [abMinLoop_improve evalAB nb rest alpha beta mvA solA v hv hiA,
              min_eq_left hvb, if_neg (by omega)]
            obtain ⟨W, rsT, e1, e2, e3, e4, v2, rv, f1, f2, f3, f4, g1, g2, g3⟩ :=
              ih hchr alpha beta v mvT (solA ++ [nb]) solT
                hv1 hv2 t1 t2 h5 h6 h7 (Or.inl ⟨hvb, hA2⟩)
            exact ⟨W, rsT, e1, e2, e3, e4, v2, rv, f1, by omega, f3, f4, g1, g2, g3⟩
          · rw [abMinLoop_keep evalAB nb rest alpha beta mvA solA v hv hiA,
              min_eq_left hA1, if_neg (by omega)]
            exact ih hchr alpha beta mvA mvT solA solT
              a1 a2 t1 t2 h5 h6 h7 (Or.inl ⟨hA1, hA2⟩)
      · -- regime B: neither loop improves
        rw [mmMinLoop_keep evalMM nb rest mvT solT w hw (by omega),
          abMinLoop_keep evalAB nb rest alpha beta mvA solA v hv (by omega),
          min_eq_left (by omega), if_neg (by omega)]
        exact ih hchr alpha beta mvA mvT solA solT a1 a2 t1 t2 h5 h6 h7 (Or.inr ⟨hB1, hB2⟩)
    · push_neg at hc1
      have hiT : w < mvT := by rcases hinv with ⟨x1, x2⟩ | ⟨x1, x2⟩ <;> omega
      rw [mmMinLoop_improve evalMM nb rest mvT solT w hw hiT]
      by_cases hc2 : w ≤ alpha
      · -- child at or below alpha: the alpha-beta loop breaks
        have hva : v ≤ alpha := hb1 hc2
        have hiA : v < mvA := by rcases hinv with ⟨x1, x2⟩ | ⟨x1, x2⟩ <;> omega
        rw [abMinLoop_improve evalAB nb rest alpha beta mvA solA v hv hiA,
          min_eq_right (by omega), if_pos hva]
        obtain ⟨W, rsT, heqW, hWle, hW1, hW2⟩ :=
          mmMinLoop_total evalMM rest hmmtot w (solT ++ [nb]) hw1 hw2
        refine ⟨W, rsT, heqW, by omega, hW1, hW2,
          v, solA ++ [nb], rfl, by omega, hv1, hv2, ?_, ?_, ?_⟩
        · intro hx
          exact hva
        · intro hx1 hx2
          omega
        · intro hx1
          omega
      · -- alpha < w < beta: exact child value and both loops improve;
        -- recurse in the exact regime with beta = w
        push_neg at hc2
        have hvw : v = w := hb2 hc2 hc1
        have hiA : v < mvA := by
          rcases hinv with ⟨x1, x2⟩ | ⟨x1, x2⟩ <;> omega
        rw [abMinLoop_improve evalAB nb rest alpha beta mvA solA v hv hiA,
          min_eq_right (by omega), if_neg (by omega), hvw]
        obtain ⟨W, rsT, heqW, hWle, hW1, hW2, v2, rv, heqV, hVle, hV1, hV2, hq1, hq2, hq3⟩ :=
          ih hchr alpha w w w (solA ++ [nb]) (solT ++ [nb])
            hw1 hw2 hw1 hw2 h5 hc2 hw2 (Or.inr ⟨rfl, rfl⟩)
        refine ⟨W, rsT, heqW, by omega, hW1, hW2, v2, rv, heqV, by omega, hV1, hV2,
          ?_, ?_, ?_⟩
        · intro hx
          exact hq1 hx
        · intro hx1 hx2
          by_cases hWw : W < w
          · exact hq2 hx1 hWw
          · have := hq3 (by omega)
            omega
        · intro hx1
          omega

/-- The central search lemma, by induction on fuel: with fuel exceeding
the number of empty cells, minimax is total with value in `[-1, 1]`,
alpha-beta is total on any valid window, and the alpha-beta value
satisfies the fail-soft window bounds with respect to the minimax
value. -/
theorem searchLemma : ∀ fuel : Nat, ∀ b : GomokuBoard, ∀ p : Nat,
    Wf b → (p = 1 ∨ p = 2) → emptyCount b < fuel →
    ∃ w rw2, mmValue fuel b p = some (w, rw2) ∧ -1 ≤ w ∧ w ≤ 1 ∧
      ∀ alpha beta : Int, -1 ≤ alpha → alpha < beta → beta ≤ 1 →
        ∃ v rv, abValue fuel b p alpha beta = some (v, rv) ∧ -1 ≤ v ∧ v ≤ 1 ∧
          (w ≤ alpha → v ≤ alpha) ∧ (alpha < w → w < beta → v = w) ∧
          (beta ≤ w → beta ≤ v) := by
  intro fuel
  induction fuel with
  | zero =>
    intro b p _ _ h
    omega
  | succ fuel ih =>
    intro b p hb hp hfuel
    have hchild : ∀ c ∈ next_boards b p, ChildOk
        (fun nb => (mmValue fuel nb (switch_player p)).map Prod.fst)
        (fun nb a2 b2 => (abValue fuel nb (switch_player p) a2 b2).map Prod.fst) c := by
      intro c hc
      have hp0 : p ≠ 0 := by omega
      obtain ⟨hwf, hcount⟩ := next_boards_facts b p hb hp0 c hc
      have hsw : switch_player p = 1 ∨ switch_player p = 2 := by
        unfold switch_player
        omega
      obtain ⟨w, rw2, heq, h1, h2, hab⟩ := ih c (switch_player p) hwf hsw (by omega)
      refine ⟨w, ?_, h1, h2, ?_⟩
      · show Option.map Prod.fst (mmValue fuel c (switch_player p)) = some w
        rw [heq]
        rfl
      · intro alpha beta ha hb2 hc2
        obtain ⟨v, rv, heq2, k1, k2, k3, k4, k5⟩ := hab alpha beta ha hb2 hc2
        refine ⟨v, ?_, k1, k2, k3, k4, k5⟩
        show Option.map Prod.fst (abValue fuel c (switch_player p) alpha beta) = some v
        rw [heq2]
        rfl
    have hmmtot : ∀ c ∈ next_boards b p,
        ∃ w2, (fun nb => (mmValue fuel nb (switch_player p)).map Prod.fst) c = some w2 ∧
          -1 ≤ w2 ∧ w2 ≤ 1 := by
      intro c hc
      obtain ⟨w2, hw2a, hw2b, hw2c, _⟩ := hchild c hc
      exact ⟨w2, hw2a, hw2b, hw2c⟩
    rcases hp with rfl | rfl
    · -- minimize node
      by_cases ht0 : winner b = some 0
      · refine ⟨0, none, by rw [mmValue_succ, if_neg (by decide), if_pos ht0], by norm_num,
          by norm_num, ?_⟩
        intro alpha beta ha hb2 hc2
        refine ⟨0, none, by rw [abValue_succ, if_neg (by decide), if_pos ht0], by norm_num,
          by norm_num, fun h => h, fun h1 h2 => rfl, fun h1 => h1⟩
      · by_cases ht1 : winner b = some 1
        · refine ⟨-1, none,
            by rw [mmValue_succ, if_neg (by decide), if_neg ht0, if_pos ht1], le_refl _,
            by norm_num, ?_⟩
          intro alpha beta ha hb2 hc2
          refine ⟨-1, none,
            by rw [abValue_succ, if_neg (by decide), if_neg ht0, if_pos ht1], le_refl _,
            by norm_num, fun h => h, fun h1 h2 => rfl, fun h1 => h1⟩
        · by_cases ht2 : winner b = some 2
          · refine ⟨1, none,
              by rw [mmValue_succ, if_neg (by decide), if_neg ht0, if_neg ht1, if_pos ht2],
              by norm_num, le_refl _, ?_⟩
            intro alpha beta ha hb2 hc2
            refine ⟨1, none,
              by rw [abValue_succ, if_neg (by decide), if_neg ht0, if_neg ht1, if_pos ht2],
              by norm_num, le_refl _, fun h => h, fun h1 h2 => rfl, fun h1 => h1⟩
          · -- loop case
            obtain ⟨W, rsT, e1, e2, e3, e4, _⟩ :=
              pairedMinLoop _ _ (next_boards b 1) hchild (-1) 1 1 1 [] []
                (by norm_num) (le_refl 1) (by norm_num) (le_refl 1) (le_refl (-1))
                (by norm_num) (le_refl 1) (Or.inl ⟨le_refl 1, le_refl 1⟩)
            refine ⟨W, some rsT, ?_, e3, e4, ?_⟩
            · rw [mmValue_succ, if_neg (by decide), if_neg ht0, if_neg ht1, if_neg ht2, e1]
              rfl
            · intro alpha beta ha hb2 hc2
              obtain ⟨W2, rsT2, f1, f2, f3, f4, v, rv, g1, g2, g3, g4, q1, q2, q3⟩ :=
                pairedMinLoop _ _ (next_boards b 1) hchild alpha beta 1 1 [] []
                  (by norm_num) (le_refl 1) (by norm_num) (le_refl 1) ha hb2 hc2
                  (Or.inl ⟨hc2, hc2⟩)
              have hWW : W = W2 ∧ rsT = rsT2 := by
                have := e1.symm.trans f1
                simpa using this
              refine ⟨v, some rv, ?_, g3, g4, ?_, ?_, ?_⟩
              · rw [abValue_succ, if_neg (by decide), if_neg ht0, if_neg ht1, if_neg ht2, g1]
                rfl
              · rw [hWW.1]
                exact q1
              · rw [hWW.1]
                exact q2
              · rw [hWW.1]
                exact q3
    · -- maximize node
      by_cases ht0 : winner b = some 0
      · refine ⟨0, none, by rw [mmValue_succ, if_pos rfl, if_pos ht0], by norm_num,
          by norm_num, ?_⟩
        intro alpha beta ha hb2 hc2
        refine ⟨0, none, by rw [abValue_succ, if_pos rfl, if_pos ht0], by norm_num,
          by norm_num, fun h => h, fun h1 h2 => rfl, fun h1 => h1⟩
      · by_cases ht1 : winner b = some 1
        · refine ⟨-1, none,
            by rw [mmValue_succ, if_pos rfl, if_neg ht0, if_pos ht1], le_refl _,
            by norm_num, ?_⟩
          intro alpha beta ha hb2 hc2
          refine ⟨-1, none,
            by rw [abValue_succ, if_pos rfl, if_neg ht0, if_pos ht1], le_refl _,
            by norm_num, fun h => h, fun h1 h2 => rfl, fun h1 => h1⟩
        · by_cases ht2 : winner b = some 2
          · refine ⟨1, none,
              by rw [mmValue_succ, if_pos rfl, if_neg ht0, if_neg ht1, if_pos ht2],
              by norm_num, le_refl _, ?_⟩
            intro alpha beta ha hb2 hc2
            refine ⟨1, none,
              by rw [abValue_succ, if_pos rfl, if_neg ht0, if_neg ht1, if_pos ht2],
              by norm_num, le_refl _, fun h => h, fun h1 h2 => rfl, fun h1 => h1⟩
          · -- loop case
            obtain ⟨W, rsT, e1, e2, e3, e4, _⟩ :=
              pairedMaxLoop _ _ (next_boards b 2) hchild (-1) 1 (-1) (-1) [] []
                (le_refl (-1)) (by norm_num) (le_refl (-1)) (by norm_num) (le_refl (-1))
                (by norm_num) (le_refl 1) (Or.inl ⟨le_refl (-1), le_refl (-1)⟩)
            refine ⟨W, some rsT, ?_, e3, e4, ?_⟩
            · rw [mmValue_succ, if_pos rfl, if_neg ht0, if_neg ht1, if_neg ht2, e1]
              rfl
            · intro alpha beta ha hb2 hc2
              obtain ⟨W2, rsT2, f1, f2, f3, f4, v, rv, g1, g2, g3, g4, q1, q2, q3⟩ :=
                pairedMaxLoop _ _ (next_boards b 2) hchild alpha beta (-1) (-1) [] []
                  (le_refl (-1)) (by norm_num) (le_refl (-1)) (by norm_num) ha hb2 hc2
                  (Or.inl ⟨ha, ha⟩)
              have hWW : W = W2 ∧ rsT = rsT2 := by
                have := e1.symm.trans f1
                simpa using this
              refine ⟨v, some rv, ?_, g3, g4, ?_, ?_, ?_⟩
              · rw [abValue_succ, if_pos rfl, if_neg ht0, if_neg ht1, if_neg ht2, g1]
                rfl
              · rw [hWW.1]
                exact q1
              · rw [hWW.1]
                exact q2
              · rw [hWW.1]
                exact q3

/-- After a root improvement to value 0, the maximize loops of minimax
and alpha-beta still agree exactly: with window `(0, 1)` a child's
alpha-beta value is 1 exactly when its minimax value is 1, and only such
children improve either loop. -/
theorem pairedRootMaxB (evalMM : GomokuBoard → Option Int)
    (evalAB : GomokuBoard → Int → Int → Option Int) :
    ∀ l : List GomokuBoard, (∀ c ∈ l, ChildOk evalMM evalAB c) →
    ∀ sol : List GomokuBoard,
      mmMaxLoop evalMM l 0 sol = abMaxLoop evalAB l 0 1 0 sol := by
  intro l
  induction l with
  | nil =>
    intro _ sol
    rfl
  | cons nb rest ih =>
    intro hch sol
    obtain ⟨w, hw, hw1, hw2, hab⟩ := hch nb (List.mem_cons_self nb rest)
    obtain ⟨v, hv, hv1, hv2, hb1, hb2, hb3⟩ := hab 0 1 (by norm_num) (by norm_num) (le_refl 1)
    have hchr : ∀ c ∈ rest, ChildOk evalMM evalAB c :=
      fun c hc => hch c (List.mem_cons_of_mem nb hc)
    have hsat : ∀ c ∈ rest, ∃ w2, evalMM c = some w2 ∧ w2 ≤ 1 := by
      intro c hc
      obtain ⟨w2, hw2a, _, hw2c, _⟩ := hchr c hc
      exact ⟨w2, hw2a, hw2c⟩
    by_cases hcw : w ≤ 0
    · have hva : v ≤ 0 := hb1 hcw
      rw [mmMaxLoop_keep evalMM nb rest 0 sol w hw (by omega),
        abMaxLoop_keep evalAB nb rest 0 1 0 sol v hv (by omega),
        max_self, if_neg (by omega)]
      exact ih hchr sol
    · have hweq : w = 1 := by omega
      have hveq : v = 1 := by
        have := hb3 (by omega)
        omega
      rw [hveq] at hv
      rw [mmMaxLoop_improve evalMM nb rest 0 sol w hw (by omega),
        abMaxLoop_improve evalAB nb rest 0 1 0 sol 1 hv (by omega),
        max_eq_right (by omega), if_pos (le_refl 1), hweq]
      exact mmMaxLoop_saturated evalMM rest hsat (sol ++ [nb])

/-- With the full root window `(-1, 1)`, the alpha-beta maximize loop and
the minimax maximize loop return the identical value and candidate list:
until the first improvement every child window is exact, an improvement
to 0 moves both loops to the exact phase, and an improvement to 1 ends
both loops with the same state. -/
theorem pairedRootMaxA (evalMM : GomokuBoard → Option Int)
    (evalAB : GomokuBoard → Int → Int → Option Int) :
    ∀ l : List GomokuBoard, (∀ c ∈ l, ChildOk evalMM evalAB c) →
    ∀ sol : List GomokuBoard,
      mmMaxLoop evalMM l (-1) sol = abMaxLoop evalAB l (-1) 1 (-1) sol := by
  intro l
  induction l with
  | nil =>
    intro _ sol
    rfl
  | cons nb rest ih =>
    intro hch sol
    obtain ⟨w, hw, hw1, hw2, hab⟩ := hch nb (List.mem_cons_self nb rest)
    obtain ⟨v, hv, hv1, hv2, hb1, hb2, hb3⟩ := hab (-1) 1 (le_refl _) (by norm_num) (le_refl 1)
    have hchr : ∀ c ∈ rest, ChildOk evalMM evalAB c :=
      fun c hc => hch c (List.mem_cons_of_mem nb hc)
    have hsat : ∀ c ∈ rest, ∃ w2, evalMM c = some w2 ∧ w2 ≤ 1 := by
      intro c hc
      obtain ⟨w2, hw2a, _, hw2c, _⟩ := hchr c hc
      exact ⟨w2, hw2a, hw2c⟩
    have hvw : v = w := by
      have h3 : w = -1 ∨ w = 0 ∨ w = 1 := by omega
      rcases h3 with h | h | h
      · have := hb1 (by omega)
        omega
      · have := hb2 (by omega) (by omega)
        omega
      · have := hb3 (by omega)
        omega
    rw [hvw] at hv
    have h3 : w = -1 ∨ w = 0 ∨ w = 1 := by omega
    rcases h3 with h | h | h
    · subst h
      rw [mmMaxLoop_keep evalMM nb rest (-1) sol (-1) hw (by omega),
        abMaxLoop_keep evalAB nb rest (-1) 1 (-1) sol (-1) hv (by omega),
        max_self, if_neg (by omega)]
      exact ih hchr sol
    · subst h
      rw [mmMaxLoop_improve evalMM nb rest (-1) sol 0 hw (by omega),
        abMaxLoop_improve evalAB nb rest (-1) 1 (-1) sol 0 hv (by omega),
        max_eq_right (by omega), if_neg (by omega)]
      exact pairedRootMaxB evalMM evalAB rest hchr (sol ++ [nb])
    · subst h
      rw [mmMaxLoop_improve evalMM nb rest (-1) sol 1 hw (by omega),
        abMaxLoop_improve evalAB nb rest (-1) 1 (-1) sol 1 hv (by omega),
        max_eq_right (by omega), if_pos (le_refl 1)]
      exact mmMaxLoop_saturated evalMM rest hsat (sol ++ [nb])

/-- C2: on every (square) board, `alpha_beta` and `minimax` return the
identical root result — the same score and the same candidate list, hence
the same applied move (or the same crash, or the same no-op): pruning
never changes the decision. -/
theorem alpha_beta_equals_minimax (b : GomokuBoard) (hb : Wf b) :
    mmValue (emptyCount b + 1) b 2 = abValue (emptyCount b + 1) b 2 (-1) 1 ∧
    minimaxStep b = alphaBetaStep b := by
  have hchild : ∀ c ∈ next_boards b 2, ChildOk
      (fun nb => (mmValue (emptyCount b) nb (switch_player 2)).map Prod.fst)
      (fun nb a2 b2 => (abValue (emptyCount b) nb (switch_player 2) a2 b2).map Prod.fst) c := by
    intro c hc
    obtain ⟨hwf, hcount⟩ := next_boards_facts b 2 hb (by omega) c hc
    obtain ⟨w, rw2, heq, h1, h2, hab⟩ :=
      searchLemma (emptyCount b) c (switch_player 2) hwf (Or.inl rfl) (by omega)
    refine ⟨w, ?_, h1, h2, ?_⟩
    · show Option.map Prod.fst (mmValue (emptyCount b) c (switch_player 2)) = some w
      rw [heq]
      rfl
    · intro alpha beta ha hb2 hc2
      obtain ⟨v, rv, heq2, k1, k2, k3, k4, k5⟩ := hab alpha beta ha hb2 hc2
      refine ⟨v, ?_, k1, k2, k3, k4, k5⟩
      show Option.map Prod.fst (abValue (emptyCount b) c (switch_player 2) alpha beta) = some v
      rw [heq2]
      rfl
  have hmain : mmValue (emptyCount b + 1) b 2 = abValue (emptyCount b + 1) b 2 (-1) 1 := by
    rw [mmValue_succ, abValue_succ, if_pos rfl, if_pos rfl]
    by_cases ht0 : winner b = some 0
    · rw [if_pos ht0, if_pos ht0]
    · rw [if_neg ht0, if_neg ht0]
      by_cases ht1 : winner b = some 1
      · rw [if_pos ht1, if_pos ht1]
      · rw [if_neg ht1, if_neg ht1]
        by_cases ht2 : winner b = some 2
        · rw [if_pos ht2, if_pos ht2]
        · rw [if_neg ht2, if_neg ht2]
          rw [pairedRootMaxA _ _ (next_boards b 2) hchild []]
  refine ⟨hmain, ?_⟩
  unfold minimaxStep alphaBetaStep
  rw [hmain]

/-- Witness for C2 at a concrete two-empty-cell board. -/
theorem alpha_beta_equals_minimax_witness :
    Wf (⟨[[0, 1], [2, 0]]⟩ : GomokuBoard) ∧
    minimaxStep ⟨[[0, 1], [2, 0]]⟩ = alphaBetaStep ⟨[[0, 1], [2, 0]]⟩ :=
  ⟨by decide, (alpha_beta_equals_minimax ⟨[[0, 1], [2, 0]]⟩ (by decide)).2⟩

/-- C5: the search terminates — with recursion depth allowance equal to
the number of empty cells plus one, both `minimax` and `alpha_beta`
complete (no fuel is ever exhausted), because every recursive call is on
a successor with exactly one fewer empty cell. -/
theorem search_terminates (b : GomokuBoard) (p : Nat) (hb : Wf b) (hp : p = 1 ∨ p = 2) :
    (∃ r, mmValue (emptyCount b + 1) b p = some r) ∧
    (∃ r, abValue (emptyCount b + 1) b p (-1) 1 = some r) ∧
    (∀ c ∈ next_boards b p, emptyCount c + 1 = emptyCount b) := by
  obtain ⟨w, rw2, heq, h1, h2, hab⟩ := searchLemma (emptyCount b + 1) b p hb hp (by omega)
  obtain ⟨v, rv, heq2, _⟩ := hab (-1) 1 (le_refl _) (by norm_num) (le_refl 1)
  exact ⟨⟨(w, rw2), heq⟩, ⟨(v, rv), heq2⟩,
    fun c hc => (next_boards_facts b p hb (by omega) c hc).2⟩

/-- Witness for C5 at a concrete one-empty-cell board. -/
theorem search_terminates_witness :
    Wf (⟨[[0]]⟩ : GomokuBoard) ∧
    ((∃ r, mmValue (emptyCount ⟨[[0]]⟩ + 1) ⟨[[0]]⟩ 2 = some r) ∧
      (∃ r, abValue (emptyCount ⟨[[0]]⟩ + 1) ⟨[[0]]⟩ 2 (-1) 1 = some r) ∧
      (∀ c ∈ next_boards ⟨[[0]]⟩ 2, emptyCount c + 1 = emptyCount ⟨[[0]]⟩)) :=
  ⟨by decide, search_terminates ⟨[[0]]⟩ 2 (by decide) (Or.inr rfl)⟩

/-- Full characterization of the maximize loop with a total child
evaluator given by a score function: the value is the fold of `max` over
the scores, the appended candidates are exactly the strict improvements
in order (so their scores strictly increase and all exceed the entry
state), and when nonempty the LAST candidate's score is the returned
value. -/
theorem mmMaxLoop_spec (eval : GomokuBoard → Option Int) (sc : GomokuBoard → Int) :
    ∀ l : List GomokuBoard, (∀ c ∈ l, eval c = some (sc c)) →
    ∀ mv : Int, ∀ sol : List GomokuBoard,
      ∃ rs, mmMaxLoop eval l mv sol =
          some (l.foldl (fun a c => max a (sc c)) mv, sol ++ rs) ∧
        List.Chain' (fun x y => sc x < sc y) rs ∧
        (∀ x ∈ rs, mv < sc x) ∧
        ((rs = [] ∧ l.foldl (fun a c => max a (sc c)) mv = mv) ∨
          (∃ x, rs.getLast? = some x ∧ sc x = l.foldl (fun a c => max a (sc c)) mv)) := by
  intro l
  induction l with
  | nil =>
    intro _ mv sol
    exact ⟨[], by rw [List.foldl_nil, List.append_nil]; rfl, List.chain'_nil, by simp,
      Or.inl ⟨rfl, rfl⟩⟩
  | cons nb rest ih =>
    intro h mv sol
    have hnb := h nb (List.mem_cons_self nb rest)
    have hrest := fun c hc => h c (List.mem_cons_of_mem nb hc)
    by_cases hlt : mv < sc nb
    · rw [mmMaxLoop_improve eval nb rest mv sol (sc nb) hnb hlt]
      obtain ⟨rs2, heq, hchain, hgt, hlast⟩ := ih hrest (sc nb) (sol ++ [nb])
      have hfold : (nb :: rest).foldl (fun a c => max a (sc c)) mv
          = rest.foldl (fun a c => max a (sc c)) (sc nb) := by
        rw [List.foldl_cons, max_eq_right (le_of_lt hlt)]
      refine ⟨nb :: rs2, ?_, ?_, ?_, ?_⟩
      · rw [hfold, heq]
        simp
      · cases rs2 with
        | nil => simp
        | cons y ys =>
          rw [List.chain'_cons]
          exact ⟨hgt y (List.mem_cons_self y ys), hchain⟩
      · intro x hx
        rcases List.mem_cons.1 hx with rfl | hx2
        · exact hlt
        · exact lt_trans hlt (hgt x hx2)
      · rw [hfold]
        rcases hlast with ⟨hrs, hfv⟩ | ⟨x, hx, hscx⟩
        · subst hrs
          exact Or.inr ⟨nb, rfl, hfv.symm⟩
        · refine Or.inr ⟨x, ?_, hscx⟩
          cases rs2 with
          | nil => simp at hx
          | cons y ys =>
            rw [List.getLast?_cons_cons]
            exact hx
    · rw [mmMaxLoop_keep eval nb rest mv sol (sc nb) hnb hlt]
      obtain ⟨rs2, heq, hchain, hgt, hlast⟩ := ih hrest mv sol
      have hfold : (nb :: rest).foldl (fun a c => max a (sc c)) mv
          = rest.foldl (fun a c => max a (sc c)) mv := by
        rw [List.foldl_cons, max_eq_left (by omega)]
      rw [hfold]
      exact ⟨rs2, heq, hchain, hgt, hlast⟩

/-- Mirror characterization of the minimize loop: strictly decreasing
candidate scores, all below the entry state, last one attaining the
returned minimum. -/
theorem mmMinLoop_spec (eval : GomokuBoard → Option Int) (sc : GomokuBoard → Int) :
    ∀ l : List GomokuBoard, (∀ c ∈ l, eval c = some (sc c)) →
    ∀ mv : Int, ∀ sol : List GomokuBoard,
      ∃ rs, mmMinLoop eval l mv sol =
          some (l.foldl (fun a c => min a (sc c)) mv, sol ++ rs) ∧
        List.Chain' (fun x y => sc y < sc x) rs ∧
        (∀ x ∈ rs, sc x < mv) ∧
        ((rs = [] ∧ l.foldl (fun a c => min a (sc c)) mv = mv) ∨
          (∃ x, rs.getLast? = some x ∧ sc x = l.foldl (fun a c => min a (sc c)) mv)) := by
  intro l
  induction l with
  | nil =>
    intro _ mv sol
    exact ⟨[], by rw [List.foldl_nil, List.append_nil]; rfl, List.chain'_nil, by simp,
      Or.inl ⟨rfl, rfl⟩⟩
  | cons nb rest ih =>
    intro h mv sol
    have hnb := h nb (List.mem_cons_self nb rest)
    have hrest := fun c hc => h c (List.mem_cons_of_mem nb hc)
    by_cases hlt : sc nb < mv
    · rw [mmMinLoop_improve eval nb rest mv sol (sc nb) hnb hlt]
      obtain ⟨rs2, heq, hchain, hgt, hlast⟩ := ih hrest (sc nb) (sol ++ [nb])
      have hfold : (nb :: rest).foldl (fun a c => min a (sc c)) mv
          = rest.foldl (fun a c => min a (sc c)) (sc nb) := by
        rw [List.foldl_cons, min_eq_right (le_of_lt hlt)]
      refine ⟨nb :: rs2, ?_, ?_, ?_, ?_⟩
      · rw [hfold, heq]
        simp
      · cases rs2 with
        | nil => simp
        | cons y ys =>
          rw [List.chain'_cons]
          exact ⟨hgt y (List.mem_cons_self y ys), hchain⟩
      · intro x hx
        rcases List.mem_cons.1 hx with rfl | hx2
        · exact hlt
        · exact lt_trans (hgt x hx2) hlt
      · rw [hfold]
        rcases hlast with ⟨hrs, hfv⟩ | ⟨x, hx, hscx⟩
        · subst hrs
          exact Or.inr ⟨nb, rfl, hfv.symm⟩
        · refine Or.inr ⟨x, ?_, hscx⟩
          cases rs2 with
          | nil => simp at hx
          | cons y ys =>
            rw [List.getLast?_cons_cons]
            exact hx
    · rw [mmMinLoop_keep eval nb rest mv sol (sc nb) hnb hlt]
      obtain ⟨rs2, heq, hchain, hgt, hlast⟩ := ih hrest mv sol
      have hfold : (nb :: rest).foldl (fun a c => min a (sc c)) mv
          = rest.foldl (fun a c => min a (sc c)) mv := by
        rw [List.foldl_cons, min_eq_left (by omega)]
      rw [hfold]
      exact ⟨rs2, heq, hchain, hgt, hlast⟩

/-- C10: in `minimax`, the `maximize` helper's candidate list is appended
in strictly increasing order of the successors' recursive scores, the
`minimize` helper's in strictly decreasing order, and whenever the list is
nonempty its LAST element's recursive score equals the returned extremum
(so the last element, not necessarily the first, attains the returned
score). -/
theorem candidate_list_monotone (b : GomokuBoard) (hb : Wf b) (hnt : winner b = none) :
    (∃ v sol, mmValue (emptyCount b + 1) b 2 = some (v, some sol) ∧
      List.Chain' (fun x y => mmScore x 1 < mmScore y 1) sol ∧
      (sol ≠ [] → ∃ x, sol.getLast? = some x ∧ mmScore x 1 = v)) ∧
    (∃ v sol, mmValue (emptyCount b + 1) b 1 = some (v, some sol) ∧
      List.Chain' (fun x y => mmScore y 2 < mmScore x 2) sol ∧
      (sol ≠ [] → ∃ x, sol.getLast? = some x ∧ mmScore x 2 = v)) := by
  have hne0 : ¬ winner b = some 0 := by
    rw [hnt]
    simp
  have hne1 : ¬ winner b = some 1 := by
    rw [hnt]
    simp
  have hne2 : ¬ winner b = some 2 := by
    rw [hnt]
    simp
  constructor
  · have heval : ∀ c ∈ next_boards b 2,
        (fun nb => (mmValue (emptyCount b) nb (switch_player 2)).map Prod.fst) c
          = some (mmScore c 1) := by
      intro c hc
      obtain ⟨hwf, hcount⟩ := next_boards_facts b 2 hb (by omega) c hc
      obtain ⟨w, rw2, heq, _⟩ := searchLemma (emptyCount b) c 1 hwf (Or.inl rfl) (by omega)
      show Option.map Prod.fst (mmValue (emptyCount b) c (switch_player 2)) = some (mmScore c 1)
      have hsw : switch_player 2 = 1 := rfl
      rw [hsw, heq]
      unfold mmScore
      rw [hcount, heq]
      rfl
    obtain ⟨rs, heq2, hchain, _, hlast⟩ :=
      mmMaxLoop_spec _ (fun c => mmScore c 1) (next_boards b 2) heval (-1) []
    refine ⟨(next_boards b 2).foldl (fun a c => max a (mmScore c 1)) (-1), rs, ?_, hchain, ?_⟩
    · rw [mmValue_succ, if_pos rfl, if_neg hne0, if_neg hne1, if_neg hne2, heq2]
      rfl
    · intro hsol
      rcases hlast with ⟨hrs, _⟩ | ⟨x, hx, hscx⟩
      · exact absurd hrs hsol
      · exact ⟨x, hx, hscx⟩
  · have heval : ∀ c ∈ next_boards b 1,
        (fun nb => (mmValue (emptyCount b) nb (switch_player 1)).map Prod.fst) c
          = some (mmScore c 2) := by
      intro c hc
      obtain ⟨hwf, hcount⟩ := next_boards_facts b 1 hb (by omega) c hc
      obtain ⟨w, rw2, heq, _⟩ := searchLemma (emptyCount b) c 2 hwf (Or.inr rfl) (by omega)
      show Option.map Prod.fst (mmValue (emptyCount b) c (switch_player 1)) = some (mmScore c 2)
      have hsw : switch_player 1 = 2 := rfl
      rw [hsw, heq]
      unfold mmScore
      rw [hcount, heq]
      rfl
    obtain ⟨rs, heq2, hchain, _, hlast⟩ :=
      mmMinLoop_spec _ (fun c => mmScore c 2) (next_boards b 1) heval 1 []
    refine ⟨(next_boards b 1).foldl (fun a c => min a (mmScore c 2)) 1, rs, ?_, hchain, ?_⟩
    · rw [mmValue_succ, if_neg (by decide), if_neg hne0, if_neg hne1, if_neg hne2, heq2]
      rfl
    · intro hsol
      rcases hlast with ⟨hrs, _⟩ | ⟨x, hx, hscx⟩
      · exact absurd hrs hsol
      · exact ⟨x, hx, hscx⟩

/-- Witness for C10 at a concrete non-terminal board. -/
theorem candidate_list_monotone_witness :
    Wf (⟨[[1, 0], [0, 2]]⟩ : GomokuBoard) ∧ winner ⟨[[1, 0], [0, 2]]⟩ = none ∧
    ((∃ v sol, mmValue (emptyCount ⟨[[1, 0], [0, 2]]⟩ + 1) ⟨[[1, 0], [0, 2]]⟩ 2 =
        some (v, some sol) ∧
      List.Chain' (fun x y => mmScore x 1 < mmScore y 1) sol ∧
      (sol ≠ [] → ∃ x, sol.getLast? = some x ∧ mmScore x 1 = v)) ∧
    (∃ v sol, mmValue (emptyCount ⟨[[1, 0], [0, 2]]⟩ + 1) ⟨[[1, 0], [0, 2]]⟩ 1 =
        some (v, some sol) ∧
      List.Chain' (fun x y => mmScore y 2 < mmScore x 2) sol ∧
      (sol ≠ [] → ∃ x, sol.getLast? = some x ∧ mmScore x 2 = v))) :=
  ⟨by decide, by decide, candidate_list_monotone ⟨[[1, 0], [0, 2]]⟩ (by decide) (by decide)⟩

/-- C1 exhibit: on this non-terminal board, O to move can win immediately
at cell `(1, 2)`, and indeed the root value is 1 with candidate list
`[move (0,1), move (1,2)]` — but `minimax` applies `solution[0]`, the
first strictly-improving candidate, whose own recursively evaluated score
is 0, not the root maximum 1. -/
theorem minimax_plays_first_improvement_not_best :
    winner ⟨[[1, 0, 2], [2, 2, 0], [1, 1, 2]]⟩ = none ∧
    mmValue (emptyCount ⟨[[1, 0, 2], [2, 2, 0], [1, 1, 2]]⟩ + 1)
        ⟨[[1, 0, 2], [2, 2, 0], [1, 1, 2]]⟩ 2 =
      some (1, some [⟨[[1, 2, 2], [2, 2, 0], [1, 1, 2]]⟩,
        ⟨[[1, 0, 2], [2, 2, 2], [1, 1, 2]]⟩]) ∧
    minimaxStep ⟨[[1, 0, 2], [2, 2, 0], [1, 1, 2]]⟩ =
      some (some ⟨[[1, 2, 2], [2, 2, 0], [1, 1, 2]]⟩) ∧
    mmScore ⟨[[1, 2, 2], [2, 2, 0], [1, 1, 2]]⟩ 1 = 0 ∧
    mmScore ⟨[[1, 0, 2], [2, 2, 2], [1, 1, 2]]⟩ 1 = 1 := by
  refine ⟨rfl, rfl, rfl, rfl, rfl⟩

/-- C3 exhibit: this board is non-terminal, but every O move loses
(recursive score -1), so neither loop ever strictly improves the initial
extremum and the returned candidate list is the empty list — not Python
`None`.  The top level then evaluates `solution[0]` on the empty list,
which raises `IndexError` (encoded `some none`): the code crashes instead
of leaving the board unchanged. -/
theorem search_crashes_when_no_candidate :
    winner ⟨[[1, 1, 0], [1, 2, 0], [0, 2, 1]]⟩ = none ∧
    mmValue (emptyCount ⟨[[1, 1, 0], [1, 2, 0], [0, 2, 1]]⟩ + 1)
        ⟨[[1, 1, 0], [1, 2, 0], [0, 2, 1]]⟩ 2 = some (-1, some []) ∧
    minimaxStep ⟨[[1, 1, 0], [1, 2, 0], [0, 2, 1]]⟩ = some none ∧
    alphaBetaStep ⟨[[1, 1, 0], [1, 2, 0], [0, 2, 1]]⟩ = some none := by
  refine ⟨rfl, rfl, rfl, rfl⟩
